import Mathlib

/-
Verification of the parsem semantic-parsing engine (nalourie/parsem).

Shallow-embedding conventions, used consistently below:

* JavaScript strings are `List Char` (abbreviated `Str`); `s.slice(a, b)` is
  `strSlice s a b`.
* JavaScript numbers are `JNum`: exact rationals extended with the IEEE special
  values `inf`, `ninf` and `nan`, plus `undef` for the JavaScript value
  `undefined` as it flows through numeric code.  Binary floating-point rounding
  is not modelled; every claim settled through `JNum` depends only on control
  flow and on values (0, 1, infinities) that are exact in IEEE arithmetic too.
* JavaScript objects used as string-keyed dictionaries are insertion-ordered
  association lists (`JMap`); iteration order is insertion order.  (JavaScript
  enumerates integer-like own keys first; the feature names and category names
  appearing in the claims are not integer-like, so insertion order is exact.)
* The repository is bundled with webpack/babel (old `loaders` config), which
  compiles `let`/`const` to `var` without temporal-dead-zone checks.  The
  embedding therefore reads `const oldLoss = curLoss || Infinity` in
  `LinearRanker.fit` / `SoftmaxRanker.fit` as the previous epoch's `curLoss`
  (undefined before the first epoch), which is the deployed behaviour.
* Loops whose termination is not structural (the unary-rule pass of
  `Grammar.parse`, the rule-normalization queue, the training epochs) take a
  fuel argument; a loop that runs forever is rendered as "the result is `none`
  for every fuel".
* Fallible code returns `Except String`; error strings mirror the JavaScript
  messages.
-/

namespace Parsem

/-- JavaScript strings, as lists of characters. -/
abbrev Str := List Char

/-- `l.slice(a, b)` on arrays and strings: the elements with indices in
`[a, b)`. -/
def jsSlice (l : List α) (a b : Nat) : List α := (l.take b).drop a

/-- `s.slice(a, b)` on strings. -/
def strSlice (s : Str) (a b : Nat) : Str := jsSlice s a b

/-- `l.join(sep)` for a single-character separator, as used for the `'-'` and
`','` separated keys (JavaScript also stringifies an array used as an object
key by joining with `','`). -/
def joinSep (l : List Str) (sep : Char) : Str := List.intercalate [sep] l

/-- `arr.splice(i, 0, a)`: insert `a` at position `i`, clamped to the end. -/
def insertAt (a : α) : Nat → List α → List α
  | 0, l => a :: l
  | _ + 1, [] => [a]
  | i + 1, x :: xs => x :: insertAt a i xs

/- ----------------------------------------------------------------- -/
/- src/parsem/grammar/symbol.js                                      -/
/- ----------------------------------------------------------------- -/

/-- `isTerminal`: `s.charAt(0) != '$' || s.length <= 1`
(`charAt(0)` of the empty string is `""`, which differs from `"$"`). -/
def isTerminal : Str → Bool
  | [] => true
  | c :: rest => c ≠ '$' || rest.isEmpty

/-- `isNonTerminal`: `!isTerminal(s)`. -/
def isNonTerminal (s : Str) : Bool := !isTerminal s

/-- `isOptional`: `s.charAt(0) == '?' && s.length > 1`. -/
def isOptional : Str → Bool
  | [] => false
  | c :: rest => c = '?' && !rest.isEmpty

/-- `stripOptional`: `isOptional(s) ? s.slice(1) : s`. -/
def stripOptional (s : Str) : Str := if isOptional s then s.drop 1 else s

/- ----------------------------------------------------------------- -/
/- JavaScript numbers                                                -/
/- ----------------------------------------------------------------- -/

/-- JavaScript numbers: exact rationals plus `Infinity`, `-Infinity`, `NaN`,
and the `undefined` value as it enters numeric positions. -/
inductive JNum where
  | undef
  | nan
  | inf
  | ninf
  | fin (q : ℚ)
deriving DecidableEq

namespace JNum

/-- `undefined` coerces to `NaN` in arithmetic. -/
def norm : JNum → JNum
  | undef => nan
  | x => x

/-- JavaScript `+` on numbers. -/
def jadd (a b : JNum) : JNum :=
  match norm a, norm b with
  | nan, _ | _, nan => nan
  | inf, ninf | ninf, inf => nan
  | inf, _ | _, inf => inf
  | ninf, _ | _, ninf => ninf
  | fin q, fin r => fin (q + r)
  | _, _ => nan

/-- JavaScript unary `-`. -/
def jneg : JNum → JNum
  | undef | nan => nan
  | inf => ninf
  | ninf => inf
  | fin q => fin (-q)

/-- JavaScript binary `-`. -/
def jsub (a b : JNum) : JNum := jadd a (jneg b)

/-- JavaScript `*`. -/
def jmul (a b : JNum) : JNum :=
  match norm a, norm b with
  | nan, _ | _, nan => nan
  | inf, inf | ninf, ninf => inf
  | inf, ninf | ninf, inf => ninf
  | inf, fin q | fin q, inf =>
      if q = 0 then nan else if 0 < q then inf else ninf
  | ninf, fin q | fin q, ninf =>
      if q = 0 then nan else if 0 < q then ninf else inf
  | fin q, fin r => fin (q * r)
  | _, _ => nan

/-- JavaScript `/` (without the `-0` distinctions, which the code never
observes). -/
def jdiv (a b : JNum) : JNum :=
  match norm a, norm b with
  | nan, _ | _, nan => nan
  | inf, inf | inf, ninf | ninf, inf | ninf, ninf => nan
  | inf, fin q => if 0 ≤ q then inf else ninf
  | ninf, fin q => if 0 ≤ q then ninf else inf
  | fin _, inf | fin _, ninf => fin 0
  | fin q, fin r =>
      if r = 0 then (if q = 0 then nan else if 0 < q then inf else ninf)
      else fin (q / r)
  | _, _ => nan

/-- JavaScript `<=` (false whenever an operand is `NaN`). -/
def jleB (a b : JNum) : Bool :=
  match norm a, norm b with
  | nan, _ | _, nan => false
  | ninf, _ => true
  | _, ninf => false
  | _, inf => true
  | inf, _ => false
  | fin q, fin r => decide (q ≤ r)
  | _, _ => false

/-- JavaScript `<` (false whenever an operand is `NaN`). -/
def jltB (a b : JNum) : Bool :=
  match norm a, norm b with
  | nan, _ | _, nan => false
  | ninf, ninf => false
  | ninf, _ => true
  | _, ninf => false
  | inf, _ => false
  | fin _, inf => true
  | fin q, fin r => decide (q < r)
  | _, _ => false

/-- JavaScript `>`. -/
def jgtB (a b : JNum) : Bool := jltB b a

/-- `Math.max` on two arguments. -/
def jmaxJ (a b : JNum) : JNum :=
  match norm a, norm b with
  | nan, _ | _, nan => nan
  | x, y => if jltB x y then y else x

/-- `Math.abs`. -/
def jabs : JNum → JNum
  | undef | nan => nan
  | inf | ninf => inf
  | fin q => fin |q|

/-- JavaScript `**` with a natural-number exponent (the only exponents the
code produces; note `x ** 0` is `1` even for `NaN`). -/
def jpowNat (a : JNum) (n : Nat) : JNum :=
  if n = 0 then fin 1 else
    match norm a with
    | nan | undef => nan
    | inf => inf
    | ninf => if n % 2 = 0 then inf else ninf
    | fin q => fin (q ^ n)

/-- JavaScript falsiness of a numeric value (`undefined`, `NaN` and `0` are
falsy). -/
def falsy : JNum → Bool
  | undef | nan => true
  | inf | ninf => false
  | fin q => decide (q = 0)

/-- JavaScript `a || b` on numeric values. -/
def jsOr (a b : JNum) : JNum := if falsy a then b else a

end JNum

export JNum (jadd jneg jsub jmul jdiv jleB jltB jgtB jmaxJ jabs jpowNat jsOr)

/- ----------------------------------------------------------------- -/
/- JavaScript objects as string-keyed dictionaries                   -/
/- ----------------------------------------------------------------- -/

/-- A JavaScript object used as a dictionary: an insertion-ordered
association list. -/
abbrev JMap (β : Type) := List (Str × β)

/-- `m[k]` as an `Option`. -/
def mfind? (m : JMap β) (k : Str) : Option β :=
  match m.find? (fun kv => decide (kv.1 = k)) with
  | some kv => some kv.2
  | none => none

/-- `m.hasOwnProperty(k)`. -/
def mmem (m : JMap β) (k : Str) : Bool := m.any (fun kv => decide (kv.1 = k))

/-- `m[k]`, with a default for the absent (`undefined`) case. -/
def mgetOr (m : JMap β) (k : Str) (d : β) : β :=
  match mfind? m k with
  | some v => v
  | none => d

/-- `m[k] = v`: update in place if the key exists (keeping its position),
otherwise append. -/
def mset (m : JMap β) (k : Str) (v : β) : JMap β :=
  if mmem m k then m.map (fun kv => if kv.1 = k then (k, v) else kv)
  else m ++ [(k, v)]

/-- A feature map / weight map: an object with numeric values. -/
abbrev FeatMap := JMap JNum

/-- `m[k]` on a numeric object: `undefined` when absent. -/
def fget? (m : FeatMap) (k : Str) : JNum :=
  match mfind? m k with
  | some v => v
  | none => JNum.undef

/-- The keys of an object, in insertion order. -/
def mkeys (m : JMap β) : List Str := m.map (fun kv => kv.1)

/-- `new Set(l)` iterated in insertion order: deduplicate keeping first
occurrences. -/
def dedupKeys (l : List Str) : List Str :=
  l.foldl (fun acc x => if acc.elem x then acc else acc ++ [x]) []

/- ----------------------------------------------------------------- -/
/- Decimal rendering of array indices (template literal interpolation) -/
/- ----------------------------------------------------------------- -/

/-- The character of a decimal digit. -/
def digitChar (n : Nat) : Char :=
  List.getD [ '0', '1', '2', '3', '4', '5', '6', '7', '8', '9' ] n '9'

/-- Decimal rendering of a natural number, as a JavaScript template literal
renders a non-negative integer index. -/
def natToStr (n : Nat) : Str :=
  if _h : n < 10 then [digitChar n]
  else natToStr (n / 10) ++ [digitChar (n % 10)]
termination_by n
decreasing_by exact Nat.div_lt_self (by omega) (by omega)

/- ----------------------------------------------------------------- -/
/- src/parsem/rank/featurize.js : ConcatFeaturizer                   -/
/- ----------------------------------------------------------------- -/

/-- The namespaced key built by `ConcatFeaturizer.transform`:
`` `${feature}_${i}` ``. -/
def nsKey (feature : Str) (i : Nat) : Str := feature ++ '_' :: natToStr i

/-- `ConcatFeaturizer.transform`: run every sub-featurizer in order and copy
its features under namespaced keys.  The sub-featurizers are the functions
`P → FeatMap` obtained from the wrapped featurizer objects. -/
def concatTransform {P : Type} (featurizers : List (P → FeatMap)) (parse : P) :
    FeatMap :=
  featurizers.enum.foldl (fun features fi =>
    let newFeatures := fi.2 parse
    newFeatures.foldl (fun features kv => mset features (nsKey kv.1 fi.1) kv.2)
      features) []

/- ----------------------------------------------------------------- -/
/- src/parsem/utils/core.js and src/parsem/utils/random.js           -/
/- ----------------------------------------------------------------- -/

/-- `range(len)`: the list `0 … len - 1`. -/
def jsRange (len : Nat) : List Nat := List.range len

/-- `Math.floor(q * m)` converted to an array index (the code only computes it
for `q ∈ [0, 1)`, where it is a valid index). -/
def jsFloorMul (q : ℚ) (m : Nat) : Nat := (Int.floor (q * m)).toNat

/-- One Fisher–Yates swap: read `copy[i]` and `copy[j]`, then write them back
exchanged.  `d` is the out-of-contract default of `getD` (JavaScript would
read `undefined` there); it is never read when the random draws lie in
`[0, 1)`. -/
def swapAt (l : List α) (i j : Nat) (d : α) : List α :=
  let x := l.getD i d
  let y := l.getD j d
  (l.set i y).set j x

/-- The Fisher–Yates loop of `shuffle`, with the state `(arrCopy, arr)`: the
loop body only ever writes `arrCopy`, and the argument array `arr` is threaded
through untouched.  `rand i` is the value `Math.random()` drawn when the loop
variable is `i`. -/
def shuffleGo (rand : Nat → ℚ) (d : α) : Nat → List α × List α → List α × List α
  | 0, st => st
  | i + 1, (copy, arr) =>
      shuffleGo rand d i
        (swapAt copy (i + 1) (jsFloorMul (rand (i + 1)) (i + 2)) d, arr)

/-- `shuffle(arr)` together with the final state of the argument array:
`(returned copy, arr after the call)`. -/
def shuffleCall (rand : Nat → ℚ) (arr : List α) (d : α) : List α × List α :=
  shuffleGo rand d (arr.length - 1) (arr, arr)

/-- `shuffle(arr)`: a Fisher–Yates-shuffled copy of `arr`. -/
def shuffle (rand : Nat → ℚ) (arr : List α) (d : α) : List α :=
  (shuffleCall rand arr d).1

/-- Modelled from the spec: `groupBy`, which `ranker.js` imports from
`utils/core` but whose definition is absent from the `src` copy of
`core.js`.  Per §4.F it aggregates items by key; `Array.from` of a `Map`
built by insertion yields the groups in first-occurrence order, each group
holding its items in list order. -/
def groupBy [DecidableEq κ] (key : α → κ) (l : List α) : List (κ × List α) :=
  l.foldl (fun acc x =>
    let k := key x
    if acc.any (fun g => decide (g.1 = k)) then
      acc.map (fun g => if g.1 = k then (g.1, g.2 ++ [x]) else g)
    else acc ++ [(k, [x])]) []

/-- `arr.reduce(f)` with no initial value: throws on an empty array. -/
def reduce1 (f : α → α → α) : List α → Except String α
  | [] => .error "TypeError: Reduce of empty array with no initial value"
  | x :: xs => .ok (xs.foldl f x)

/-- Insertion step of the descending sort below. -/
def insertDescBy (score : α → JNum) (x : α) : List α → List α
  | [] => [x]
  | y :: ys =>
      if jltB (score y) (score x) then x :: y :: ys
      else y :: insertDescBy score x ys

/-- `arr.sort((a, b) => b[0] - a[0])`: sort descending by score.  JavaScript
leaves the sorting algorithm implementation-defined; the claims below only
touch the empty list, on which every sort agrees. -/
def sortDescBy (score : α → JNum) : List α → List α
  | [] => []
  | x :: xs => insertDescBy score x (sortDescBy score xs)

/- ----------------------------------------------------------------- -/
/- src/parsem/grammar/rule.js                                        -/
/- ----------------------------------------------------------------- -/

/-- Untyped JavaScript values, as far as rule semantics manipulate them. -/
inductive JSV where
  | null
  | undef
  | str (s : Str)
  | num (n : JNum)
  | arr (xs : List JSV)

/-- `x[i]` on a JavaScript value: array indexing, `undefined` otherwise
(rule semantics are never evaluated by the claims below; this total rendering
of the partial JavaScript operation is only reached through them). -/
def jsIndex : JSV → Nat → JSV
  | JSV.arr xs, i => xs.getD i JSV.undef
  | _, _ => JSV.undef

/-- The semantics function of a rule: from the children's denotations to the
rule's denotation. -/
abbrev Sem := List JSV → JSV

/-- A constructed production rule (`class Rule`), after its constructor's
checks have passed.  `tag` and `lhs` are strings, `rhs` is the list of
right-hand-side symbols (an `rhs` given as a string has already been split on
spaces). -/
structure Rule where
  tag : Str
  lhs : Str
  rhs : List Str
  semantics : Sem

/-- `rule.arity()`. -/
def Rule.arity (r : Rule) : Nat := r.rhs.length

/-- `rule.isUnary()`. -/
def Rule.isUnary (r : Rule) : Bool := r.rhs.length == 1

/-- `rule.isBinary()`. -/
def Rule.isBinary (r : Rule) : Bool := r.rhs.length == 2

/-- `rule.isNary()`. -/
def Rule.isNary (r : Rule) : Bool := decide (2 < r.rhs.length)

/-- `rule.isLexical()`. -/
def Rule.isLexical (r : Rule) : Bool := r.rhs.all isTerminal

/-- `rule.isCategorical()`. -/
def Rule.isCategorical (r : Rule) : Bool := r.rhs.all isNonTerminal

/-- `rule.isMixed()`. -/
def Rule.isMixed (r : Rule) : Bool := !(r.isLexical || r.isCategorical)

/-- `rule.hasOptionals()`. -/
def Rule.hasOptionals (r : Rule) : Bool := r.rhs.any isOptional

/-- `s.split(' ')` (keeps empty fragments, as JavaScript does). -/
def splitSpace (s : Str) : List Str := s.splitOn ' '

/-- `new Rule(tag, lhs, rhs, semantics)` with an array `rhs`: the constructor's
assertions, in source order.  The `tag`/`lhs`-are-strings and
`semantics`-is-a-function assertions hold by typing. -/
def mkRule (tag lhs : Str) (rhs : List Str) (semantics : Sem) :
    Except String Rule :=
  if !isNonTerminal lhs then .error "Rule: lhs must be a non-terminal."
  else if rhs.length = 0 then .error "Rule: arity 0 rules are not allowed."
  else .ok ⟨tag, lhs, rhs, semantics⟩

/-- `new Rule(tag, lhs, rhs, semantics)` with a string `rhs`, which the
constructor splits on spaces. -/
def mkRuleStr (tag lhs : Str) (rhs : Str) (semantics : Sem) :
    Except String Rule :=
  mkRule tag lhs (splitSpace rhs) semantics

/- ----------------------------------------------------------------- -/
/- Tokens (the tokenizer collaborator's output)                      -/
/- ----------------------------------------------------------------- -/

/-- A token, per the §6 tokenizer contract: the (possibly normalized) token
string together with the byte span `[start, stop)` of its pre-normalized
source.  The tokenizer module itself (`parsem/tokenize/tokenize.js`) is not
under `src/`; `Grammar` only consumes its output, so the parser below is
parameterized by an arbitrary `tokenize : Str → List Token`. -/
structure Token where
  token : Str
  start : Nat
  stop : Nat
deriving DecidableEq

/-- The all-empty token, used as the `getD` default where JavaScript would
read `undefined`; never read on the executed paths. -/
def dTok : Token := ⟨[], 0, 0⟩

/-- A tokenizer function. -/
abbrev Tokenizer := Str → List Token

/- ----------------------------------------------------------------- -/
/- Grammar construction: rule normalization (unnamed/part_008)       -/
/- ----------------------------------------------------------------- -/

/-- `processOptionalRule(rule, rules)`: the two replacement rules pushed onto
the queue, or the error thrown while constructing them. -/
def processOptionalRule (rule : Rule) : Except String (List Rule) := do
  let optionalIndex := rule.rhs.findIdx isOptional
  let optionalWord := stripOptional (rule.rhs.getD optionalIndex [])
  let rhsWithOption := rule.rhs.set optionalIndex optionalWord
  let r1 ← mkRule (rule.tag ++ '_' :: optionalWord) rule.lhs rhsWithOption
    rule.semantics
  let rhsWithoutOption := rule.rhs.eraseIdx optionalIndex
  let r2 ← mkRule (rule.tag ++ '_' :: '~' :: optionalWord) rule.lhs
    rhsWithoutOption
    (fun args => rule.semantics (insertAt JSV.null optionalIndex args))
  pure [r1, r2]

/-- `processMixedRule(rule, rules, generatedLexicalRules)`: the lifted rule
and the generated lexical rules, together with the updated deduplication
set. -/
def processMixedRule (tokenize : Tokenizer) (rule : Rule)
    (generatedLexicalRules : List Str) :
    Except String (List Rule × List Str) := do
  let newRhs := rule.rhs.map (fun x =>
    if isTerminal x then '$' :: '@' :: x else x)
  let r1 ← mkRule rule.tag rule.lhs newRhs rule.semantics
  let lexicalElements := rule.rhs.filter isTerminal
  let (lexRules, genOut) ← lexicalElements.foldlM
    (fun (acc : List Rule × List Str) lexicalElement => do
      let key := joinSep ((tokenize lexicalElement).map (fun t => t.token)) '-'
      if acc.2.elem key then pure acc
      else do
        let r ← mkRuleStr lexicalElement ('$' :: '@' :: key) lexicalElement
          (fun _ => JSV.str lexicalElement)
        pure (acc.1 ++ [r], acc.2 ++ [key]))
    ([], generatedLexicalRules)
  pure (r1 :: lexRules, genOut)

/-- `processNaryRule(rule, rules, generatedNaryRules)`: the residual rule and
(if new) the generated binarization rule, with the updated deduplication
set. -/
def processNaryRule (rule : Rule) (generatedNaryRules : List Str) :
    Except String (List Rule × List Str) := do
  let firstNonTerminal := rule.rhs.getD 0 []
  let secondNonTerminal := rule.rhs.getD 1 []
  let restNonTerminals := rule.rhs.drop 2
  let newRuleLhs := firstNonTerminal ++ '_' :: secondNonTerminal
  let newRuleRhs := [firstNonTerminal, secondNonTerminal]
  let oldRule ← mkRule rule.tag rule.lhs (newRuleLhs :: restNonTerminals)
    (fun args =>
      match args with
      | x :: y => rule.semantics (jsIndex x 0 :: jsIndex x 1 :: y)
      | [] => rule.semantics
          (jsIndex JSV.undef 0 :: jsIndex JSV.undef 1 :: []))
  if generatedNaryRules.elem newRuleLhs then pure ([oldRule], generatedNaryRules)
  else do
    let newRule ← mkRule (rule.tag ++ '_' :: newRuleLhs) newRuleLhs newRuleRhs
      (fun args => JSV.arr args)
    pure ([oldRule, newRule], generatedNaryRules ++ [newRuleLhs])

/-- The three normalized rule tables built by `processRules`.  Keys are the
strings JavaScript coerces the array keys to (elements joined with `','`). -/
structure RuleTables where
  lexicalRules : JMap (List Rule)
  unaryRules : JMap (List Rule)
  binaryRules : JMap (List Rule)

/-- Append a rule to a table bucket, creating the bucket if absent. -/
def pushTable (m : JMap (List Rule)) (key : Str) (r : Rule) :
    JMap (List Rule) :=
  mset m key (mgetOr m key [] ++ [r])

/-- The lexical-table key of a lexical rule: each rhs symbol is tokenized and
its tokens joined with `','`; the resulting array, used as an object key, is
itself joined with `','`. -/
def lexicalKey (tokenize : Tokenizer) (r : Rule) : Str :=
  joinSep (r.rhs.map (fun s =>
    joinSep ((tokenize s).map (fun t => t.token)) ',')) ','

/-- The `processRules` queue loop of the `Grammar` constructor.  The queue is
drained from the front (`rules.shift()`), replacement rules are pushed at the
back.  The loop's termination is not structural, so it takes fuel; the spec's
termination argument (and this file's claims) only need the error/success
behaviour at finite depth. -/
def processRules (tokenize : Tokenizer) :
    Nat → List Rule → RuleTables → List Str → List Str →
    Except String RuleTables
  | _, [], tables, _, _ => .ok tables
  | 0, _ :: _, _, _, _ => .error "processRules: out of fuel"
  | fuel + 1, rule :: rest, tables, genLex, genNary =>
      if rule.hasOptionals then do
        let newRules ← processOptionalRule rule
        processRules tokenize fuel (rest ++ newRules) tables genLex genNary
      else if rule.isMixed then do
        let (newRules, genLex2) ← processMixedRule tokenize rule genLex
        processRules tokenize fuel (rest ++ newRules) tables genLex2 genNary
      else if rule.isNary && !rule.isLexical then do
        let (newRules, genNary2) ← processNaryRule rule genNary
        processRules tokenize fuel (rest ++ newRules) tables genLex genNary2
      else if rule.isLexical then
        let key := lexicalKey tokenize rule
        processRules tokenize fuel rest
          { tables with lexicalRules := pushTable tables.lexicalRules key rule }
          genLex genNary
      else if rule.isUnary then
        let key := joinSep rule.rhs ','
        processRules tokenize fuel rest
          { tables with unaryRules := pushTable tables.unaryRules key rule }
          genLex genNary
      else if rule.isBinary then
        let key := joinSep rule.rhs ','
        processRules tokenize fuel rest
          { tables with binaryRules := pushTable tables.binaryRules key rule }
          genLex genNary
      else .error "Issue processing Rule instance."

/-- Entry point of rule processing: empty tables and deduplication sets. -/
def processRulesInit (tokenize : Tokenizer) (fuel : Nat) (rules : List Rule) :
    Except String RuleTables :=
  processRules tokenize fuel rules ⟨[], [], []⟩ [] []

/- ----------------------------------------------------------------- -/
/- Parses and derivations (parse/parse.js, grammar/derivation.js)    -/
/- ----------------------------------------------------------------- -/

/-- A parse tree node, with the fields the chart parser constructs and
consults: `tag`, `category`, `span` and `children` (`class Parse`).  The
`semantics` closure and, for grammar-produced derivations, the `rule`
back-pointer are carried by the source objects but never consulted by the
parsing loop, whose behaviour the claims below are about. -/
inductive Parse where
  | mk (tag category span : Str) (children : List Parse)

/-- `parse.tag`. -/
def Parse.tag : Parse → Str
  | .mk t _ _ _ => t

/-- `parse.category`. -/
def Parse.category : Parse → Str
  | .mk _ c _ _ => c

/-- `parse.span`. -/
def Parse.span : Parse → Str
  | .mk _ _ s _ => s

/-- `parse.children`. -/
def Parse.children : Parse → List Parse
  | .mk _ _ _ cs => cs

/-- `new Derivation(rule, span, children)`: a `Parse` with
`tag = rule.tag` and `category = rule.lhs`. -/
def Derivation (rule : Rule) (span : Str) (children : List Parse) : Parse :=
  .mk rule.tag rule.lhs span children

/-- The junk default handed to `getD` where JavaScript would read
`undefined`; never read on the executed paths. -/
def dParse : Parse := .mk [] [] [] []

/- ----------------------------------------------------------------- -/
/- Grammar.parse (unnamed/part_008)                                  -/
/- ----------------------------------------------------------------- -/

/-- The configuration of a constructed `Grammar`: the three normalized rule
tables, the default root categories, and the sub-parsers (of which `parse`
only uses the `parse` method, a function from a string span to parses). -/
structure GrammarT where
  lexicalRules : JMap (List Rule)
  unaryRules : JMap (List Rule)
  binaryRules : JMap (List Rule)
  roots : List Str
  subparsers : List (Str → List Parse)

/-- The chart: a total map from index pairs to cells; cells that were never
assigned read as `[]`, matching the `chart[[i,k]] || []` reads. -/
abbrev Chart := Nat × Nat → List Parse

/-- `chart[[i,j]] = cell`. -/
def chartSet (chart : Chart) (p : Nat × Nat) (cell : List Parse) : Chart :=
  fun q => if q = p then cell else chart q

/-- The derivations the unary rules matching `parse.category` append for a
cell element `parse` (`unaryRules[parse.category] || []`, in table order). -/
def unaryExps (g : GrammarT) (span : Str) (parse : Parse) : List Parse :=
  (mgetOr g.unaryRules parse.category []).map (fun r => Derivation r span [parse])

/-- The unary pass over one cell: `for (let k = 0; k < spanParses.length; k++)`
where `spanParses` aliases the cell array being appended to — the loop bound
re-reads the growing length.  `fuel` bounds the number of iterations;
exhausting it returns `none`. -/
def unaryLoop (g : GrammarT) (span : Str) :
    Nat → Nat → List Parse → Option (List Parse)
  | 0, k, cell => if k < cell.length then none else some cell
  | fuel + 1, k, cell =>
      if k < cell.length then
        unaryLoop g span fuel (k + 1)
          (cell ++ unaryExps g span (cell.getD k dParse))
      else some cell

/-- The contents a chart cell `[i, j)` holds when the unary pass starts
(sub-parser parses, then lexical-rule derivations, then binary-rule
derivations over all split points), together with the cell's verbatim string
span. -/
def buildBaseCell (g : GrammarT) (s : Str) (tokens : List Token)
    (chart : Chart) (i j : Nat) : Str × List Parse :=
  let currentTokens := jsSlice tokens i j
  let stringSpan := strSlice s (currentTokens.getD 0 dTok).start
    (currentTokens.getD (currentTokens.length - 1) dTok).stop
  let tokenSpan := currentTokens.map (fun t => t.token)
  let subParses := g.subparsers.foldl (fun acc sub => acc ++ sub stringSpan) []
  let lexParses := (mgetOr g.lexicalRules (joinSep tokenSpan ',') []).map
    (fun r => Derivation r stringSpan [])
  let binParses := (List.range' 1 (tokenSpan.length - 1)).foldl
    (fun acc split =>
      let lParses := chart (i, i + split)
      let rParses := chart (i + split, j)
      acc ++ lParses.foldl (fun accL lParse =>
        accL ++ rParses.foldl (fun accR rParse =>
          accR ++ (mgetOr g.binaryRules
              (lParse.category ++ ',' :: rParse.category) []).map
            (fun r => Derivation r stringSpan [lParse, rParse])) []) []) []
  (stringSpan, subParses ++ lexParses ++ binParses)

/-- Process one chart cell: build its pre-unary contents, run the unary pass,
store the result. -/
def processCell (g : GrammarT) (s : Str) (tokens : List Token) (fuel : Nat)
    (chart : Chart) (p : Nat × Nat) : Option Chart :=
  let built := buildBaseCell g s tokens chart p.1 p.2
  match unaryLoop g built.1 fuel 0 built.2 with
  | none => none
  | some cell => some (chartSet chart p cell)

/-- All cell positions `(i, i + l)` in processing order: span lengths
`l = 1 … T` outer, starts `i = 0 … T - l` inner. -/
def positions (T : Nat) : List (Nat × Nat) :=
  (List.range' 1 T).flatMap (fun l =>
    (List.range (T - l + 1)).map (fun i => (i, i + l)))

/-- Process the chart cells in order; `none` as soon as one unary pass runs
out of fuel. -/
def processCells (g : GrammarT) (s : Str) (tokens : List Token) (fuel : Nat) :
    List (Nat × Nat) → Chart → Option Chart
  | [], chart => some chart
  | p :: ps, chart =>
      match processCell g s tokens fuel chart p with
      | none => none
      | some chart2 => processCells g s tokens fuel ps chart2

/-- `Grammar.parse(s, roots)`: tokenize, fill the chart bottom-up, and return
the root cell filtered against `roots` (all parses when `roots` is empty).
`fuel` bounds each cell's unary pass; `none` means some unary pass exceeded
it. -/
def Grammar.parse (g : GrammarT) (tokenize : Tokenizer) (fuel : Nat) (s : Str)
    (roots : List Str) : Option (List Parse) :=
  let tokens := tokenize s
  if tokens.length = 0 then some [] else
    match processCells g s tokens fuel (positions tokens.length)
        (fun _ => []) with
    | none => none
    | some chart =>
        let parses := chart (0, tokens.length)
        some (if 0 < roots.length then
          parses.filter (fun p => roots.contains p.category) else parses)

/-- The unary pass the spec describes (for comparison with `unaryLoop`):
iterate over exactly the derivations the cell holds at the start of the pass,
appending each of their unary expansions once. -/
def specUnaryPassOnce (g : GrammarT) (span : Str) (cell : List Parse) :
    List Parse :=
  cell ++ cell.flatMap (unaryExps g span)

/- ----------------------------------------------------------------- -/
/- src/parsem/rank/ranker.js                                         -/
/- ----------------------------------------------------------------- -/

/-- What a ranker holds of its collaborators: the featurizer's `transform`,
the parser's `parse` (with its default roots), and `computeDenotation` on the
parses (`P` is the parse type, `D` the denotation type; `equal` on
denotations is decidable equality). -/
structure RankerEnv (P D : Type) where
  featurize : P → FeatMap
  parserFn : Str → List P
  denote : P → D

/-- The private `getScore` of `LinearRanker` (and the logit of
`SoftmaxRanker`): `Σ (weights[feature] || 0) * features[feature]` over the
features in insertion order. -/
def dotScore (weights features : FeatMap) : JNum :=
  features.foldl (fun output kv =>
    jadd output (jmul (jsOr (fget? weights kv.1) (JNum.fin 0)) kv.2))
    (JNum.fin 0)

/-- The per-epoch mutable state of a fit loop: `this.weights`, the per-epoch
`updateTimes`, and the accumulated `curLoss`. -/
structure EpochSt where
  weights : FeatMap
  ut : JMap Nat
  loss : JNum

/-- The `for (let feature in grad)` weight-update loop shared verbatim by
`LinearRanker.fit` and `SoftmaxRanker.fit`: initialize absent weights to 0,
apply the lazy regularization factor `(1 - learningRate * regularization) **
(i - (updateTimes[feature] || 0))`, subtract `learningRate * grad[feature]`,
and record the update time. -/
def updateWeights (learningRate regularization : JNum) (i : Nat)
    (grad : FeatMap) (weights : FeatMap) (ut : JMap Nat) :
    FeatMap × JMap Nat :=
  grad.foldl (fun acc kv =>
    let f := kv.1
    let w := if mmem acc.1 f then acc.1 else mset acc.1 f (JNum.fin 0)
    let factor := jpowNat (jsub (JNum.fin 1) (jmul learningRate regularization))
      (i - mgetOr acc.2 f 0)
    let w := mset w f (jmul (mgetOr w f JNum.undef) factor)
    let w := mset w f (jsub (mgetOr w f JNum.undef) (jmul learningRate kv.2))
    (w, mset acc.2 f i)) (weights, ut)

/-- The end-of-epoch regularization flush: every weight is multiplied by the
factor for the final index `i` (which equals the sample count). -/
def flushReg (learningRate regularization : JNum) (i : Nat) (ut : JMap Nat)
    (weights : FeatMap) : FeatMap :=
  weights.map (fun kv =>
    (kv.1, jmul kv.2 (jpowNat
      (jsub (JNum.fin 1) (jmul learningRate regularization))
      (i - mgetOr ut kv.1 0))))

/-- One sample of `LinearRanker.fit`'s inner loop, at loop index `i`: score
the parses, pick the best correct parse by `reduce` (which throws on an empty
array when no parse is correct), collect the margin violators, accumulate the
hinge loss, build the gradient, and update the weights. -/
def linSample {P D : Type} [DecidableEq D] [Inhabited D] (env : RankerEnv P D)
    (utterances : List Str) (denots : List D) (epochOrder : List Nat)
    (st : EpochSt) (i : Nat) : Except String EpochSt :=
  let learningRate := JNum.fin (1 / 100)
  let regularization := JNum.fin (1 / 100)
  let alpha := JNum.fin 1
  let utterance := utterances.getD (epochOrder.getD i 0) []
  let denot := denots.getD (epochOrder.getD i 0) default
  let scoredParses := (env.parserFn utterance).map (fun p =>
    (dotScore st.weights (env.featurize p), decide (env.denote p = denot), p))
  match reduce1 (fun acc v => if jgtB v.1 acc.1 then v else acc)
      (scoredParses.filter (fun t => t.2.1)) with
  | .error e => .error e
  | .ok best =>
      let correctScore := best.1
      let correctParse := best.2.2
      let topScoredParses := scoredParses.filter (fun t =>
        !t.2.1 && jltB (jsub correctScore t.1) alpha)
      let lossAdd := (topScoredParses.map (fun t =>
        jmaxJ (jsub (jadd t.1 alpha) correctScore) (JNum.fin 0))).foldl jadd
        (JNum.fin 0)
      let grad := topScoredParses.foldl (fun grad t =>
        let topFeatures := env.featurize t.2.2
        let correctFeatures := env.featurize correctParse
        let features := dedupKeys (mkeys topFeatures ++ mkeys correctFeatures)
        features.foldl (fun grad f =>
          let grad := if mmem grad f then grad else mset grad f (JNum.fin 0)
          mset grad f (jadd (mgetOr grad f JNum.undef)
            (jsub (jsOr (fget? topFeatures f) (JNum.fin 0))
              (jsOr (fget? correctFeatures f) (JNum.fin 0))))) grad)
        ([] : FeatMap)
      let (w, ut) := updateWeights learningRate regularization i grad
        st.weights st.ut
      .ok ⟨w, ut, jadd st.loss lossAdd⟩

/-- One epoch of `LinearRanker.fit`: shuffle the sample order, run the inner
loop, flush the regularization at the final index, and report the epoch's
accumulated loss.  `rands e` is the stream of `Math.random()` draws the
epoch's `shuffle` consumes. -/
def linEpoch {P D : Type} [DecidableEq D] [Inhabited D] (env : RankerEnv P D)
    (utterances : List Str) (denots : List D) (rands : Nat → Nat → ℚ)
    (e : Nat) (weights : FeatMap) : Except String (FeatMap × JNum) :=
  let numSamples := utterances.length
  let epochOrder := shuffle (rands e) (jsRange numSamples) 0
  match (List.range utterances.length).foldlM
      (linSample env utterances denots epochOrder)
      ⟨weights, [], JNum.fin 0⟩ with
  | .error er => .error er
  | .ok st => .ok (flushReg (JNum.fin (1 / 100)) (JNum.fin (1 / 100))
      numSamples st.ut st.weights, st.loss)

/-- The epoch loop shared by both trainable rankers:
`for (let epoch = 0; epoch < maxEpochs; epoch++)` with
`const oldLoss = curLoss || Infinity` (under the bundle's `var` scoping this
reads the previous epoch's loss, `undefined` before the first epoch) and the
early return when `Math.abs(curLoss - oldLoss) <= tol`.  Returns the final
weights and the trace of per-epoch losses. -/
def trainLoop (body : Nat → FeatMap → Except String (FeatMap × JNum))
    (tol : JNum) : Nat → Nat → JNum → FeatMap →
    Except String (FeatMap × List JNum)
  | 0, _, _, w => .ok (w, [])
  | fuel + 1, e, prev, w =>
      let oldLoss := jsOr prev JNum.inf
      match body e w with
      | .error er => .error er
      | .ok (w2, curLoss) =>
          if jleB (jabs (jsub curLoss oldLoss)) tol then .ok (w2, [curLoss])
          else
            match trainLoop body tol fuel (e + 1) curLoss w2 with
            | .error er => .error er
            | .ok (w3, rest) => .ok (w3, curLoss :: rest)

/-- The tolerance comparison the epoch loop performs after the epoch with
index `k` (0-based), read off a loss trace: the current loss is compared
against the previous epoch's loss — `prev` before the first epoch — passed
through `|| Infinity`, which turns a falsy (zero, `NaN`, undefined) previous
loss into `Infinity`. -/
def stopCheck (tol prev : JNum) (losses : List JNum) (k : Nat) : Bool :=
  jleB (jabs (jsub (losses.getD k JNum.nan)
    (jsOr (if k = 0 then prev else losses.getD (k - 1) JNum.nan) JNum.inf)))
    tol

/-- `LinearRanker.fit(utterances, denotations)`: the length assertion, then
up to `maxEpochs = 100` epochs with `tol = 1e-2`.  Returns the final weights
and the per-epoch loss trace (the observable state of the call). -/
def LinearRanker.fit {P D : Type} [DecidableEq D] [Inhabited D]
    (env : RankerEnv P D) (rands : Nat → Nat → ℚ) (weights : FeatMap)
    (utterances : List Str) (denots : List D) :
    Except String (FeatMap × List JNum) :=
  if utterances.length ≠ denots.length then
    .error "utterances and denotations must be of the same length."
  else trainLoop (linEpoch env utterances denots rands) (JNum.fin (1 / 100))
    100 0 JNum.undef weights

/-- One sample of `SoftmaxRanker.fit`'s inner loop.  `jexp`/`jlog` are the
transcendental `Math.exp`/`Math.log`, taken as parameters since their IEEE
values are not rational; no claim below evaluates them. -/
def softSample {P D : Type} [DecidableEq D] [Inhabited D]
    (jexp jlog : JNum → JNum) (env : RankerEnv P D)
    (utterances : List Str) (denots : List D) (epochOrder : List Nat)
    (st : EpochSt) (i : Nat) : Except String EpochSt :=
  let learningRate := JNum.fin (1 / 1000)
  let regularization := JNum.fin (1 / 1000)
  let utterance := utterances.getD (epochOrder.getD i 0) []
  let denot := denots.getD (epochOrder.getD i 0) default
  let expScoredParses := (env.parserFn utterance).map (fun p =>
    (jexp (dotScore st.weights (env.featurize p)), env.featurize p,
      decide (env.denote p = denot), p))
  let normalizer := expScoredParses.foldl (fun acc t => jadd acc t.1)
    (JNum.fin 0)
  let probScoredParses := expScoredParses.map (fun t =>
    (jdiv t.1 normalizer, t.2))
  let denotProb := (probScoredParses.filter (fun t => t.2.2.1)).foldl
    (fun acc t => jadd acc t.1) (JNum.fin 0)
  let averageFeatures := probScoredParses.foldl (fun af t =>
    t.2.1.foldl (fun af kv =>
      let af := if mmem af kv.1 then af else mset af kv.1 (JNum.fin 0)
      mset af kv.1 (jadd (mgetOr af kv.1 JNum.undef) (jmul t.1 kv.2))) af)
    ([] : FeatMap)
  let grad := (probScoredParses.filter (fun t => t.2.2.1)).foldl (fun grad t =>
    t.2.1.foldl (fun grad kv =>
      let grad := if mmem grad kv.1 then grad else mset grad kv.1 (JNum.fin 0)
      mset grad kv.1 (jadd (mgetOr grad kv.1 JNum.undef)
        (jmul (jmul (jneg (jdiv (JNum.fin 1) denotProb)) t.1)
          (jsub kv.2 (fget? averageFeatures kv.1))))) grad)
    ([] : FeatMap)
  let (w, ut) := updateWeights learningRate regularization i grad
    st.weights st.ut
  .ok ⟨w, ut, jadd st.loss (jneg (jlog denotProb))⟩

/-- One epoch of `SoftmaxRanker.fit`. -/
def softEpoch {P D : Type} [DecidableEq D] [Inhabited D]
    (jexp jlog : JNum → JNum) (env : RankerEnv P D) (utterances : List Str)
    (denots : List D) (rands : Nat → Nat → ℚ) (e : Nat) (weights : FeatMap) :
    Except String (FeatMap × JNum) :=
  let numSamples := utterances.length
  let epochOrder := shuffle (rands e) (jsRange numSamples) 0
  match (List.range numSamples).foldlM
      (softSample jexp jlog env utterances denots epochOrder)
      ⟨weights, [], JNum.fin 0⟩ with
  | .error er => .error er
  | .ok st => .ok (flushReg (JNum.fin (1 / 1000)) (JNum.fin (1 / 1000))
      numSamples st.ut st.weights, st.loss)

/-- `SoftmaxRanker.fit(utterances, denotations)`: the length assertion, then
up to `maxEpochs = 100` epochs with `tol = 1e-4`. -/
def SoftmaxRanker.fit {P D : Type} [DecidableEq D] [Inhabited D]
    (jexp jlog : JNum → JNum) (env : RankerEnv P D) (rands : Nat → Nat → ℚ)
    (weights : FeatMap) (utterances : List Str) (denots : List D) :
    Except String (FeatMap × List JNum) :=
  if utterances.length ≠ denots.length then
    .error "utterances and denotations must be of the same length."
  else trainLoop (softEpoch jexp jlog env utterances denots rands)
    (JNum.fin (1 / 10000)) 100 0 JNum.undef weights

/-- `scoresAndParses(s)[0][1]`: indexing `[0]` into an empty array yields
`undefined`, and reading `[1]` from it throws. -/
def jsFirstSecond {α β : Type} : List (α × β) → Except String β
  | [] => .error "TypeError: Cannot read property of undefined"
  | x :: _ => .ok x.2

/-- `LinearRanker.scoresAndParses(s)`. -/
def LinearRanker.scoresAndParses {P D : Type} (env : RankerEnv P D)
    (weights : FeatMap) (s : Str) : List (JNum × P) :=
  sortDescBy (fun t => t.1) ((env.parserFn s).map (fun p =>
    (dotScore weights (env.featurize p), p)))

/-- `LinearRanker.scoresAndDenotations(s)`: group the scored parses'
denotations, aggregate each group by `Math.max` starting from `-Infinity`,
and sort descending. -/
def LinearRanker.scoresAndDenots {P D : Type} [DecidableEq D]
    (env : RankerEnv P D) (weights : FeatMap) (s : Str) : List (JNum × D) :=
  let scoredParseDenots := (LinearRanker.scoresAndParses env weights s).map
    (fun t => (t.1, env.denote t.2))
  sortDescBy (fun t => t.1) ((groupBy (fun t => t.2) scoredParseDenots).map
    (fun grp => ((grp.2.foldl (fun acc t => jmaxJ acc t.1) JNum.ninf), grp.1)))

/-- `Ranker.topParse(s)` as inherited by `LinearRanker`. -/
def LinearRanker.topParse {P D : Type} (env : RankerEnv P D)
    (weights : FeatMap) (s : Str) : Except String P :=
  jsFirstSecond (LinearRanker.scoresAndParses env weights s)

/-- `Ranker.topDenotation(s)` as inherited by `LinearRanker`. -/
def LinearRanker.topDenot {P D : Type} [DecidableEq D] (env : RankerEnv P D)
    (weights : FeatMap) (s : Str) : Except String D :=
  jsFirstSecond (LinearRanker.scoresAndDenots env weights s)

/-- `ConstantRanker.scoresAndParses(s)`: every parse scores 0, parser order
kept. -/
def ConstantRanker.scoresAndParses {P D : Type} (env : RankerEnv P D)
    (s : Str) : List (JNum × P) :=
  (env.parserFn s).map (fun p => (JNum.fin 0, p))

/-- `ConstantRanker.scoresAndDenotations(s)`. -/
def ConstantRanker.scoresAndDenots {P D : Type} (env : RankerEnv P D)
    (s : Str) : List (JNum × D) :=
  (env.parserFn s).map (fun p => (JNum.fin 0, env.denote p))

/-- `Ranker.topParse(s)` as inherited by `ConstantRanker`. -/
def ConstantRanker.topParse {P D : Type} (env : RankerEnv P D) (s : Str) :
    Except String P :=
  jsFirstSecond (ConstantRanker.scoresAndParses env s)

/-- `Ranker.topDenotation(s)` as inherited by `ConstantRanker`. -/
def ConstantRanker.topDenot {P D : Type} (env : RankerEnv P D) (s : Str) :
    Except String D :=
  jsFirstSecond (ConstantRanker.scoresAndDenots (D := D) env s)

/-- `SoftmaxRanker.scoresAndParses(s)`: softmax-normalized scores, sorted
descending. -/
def SoftmaxRanker.scoresAndParses {P D : Type} (jexp : JNum → JNum)
    (env : RankerEnv P D) (weights : FeatMap) (s : Str) : List (JNum × P) :=
  let expScoredParses := (env.parserFn s).map (fun p =>
    (jexp (dotScore weights (env.featurize p)), p))
  let normalizer := expScoredParses.foldl (fun acc t => jadd acc t.1)
    (JNum.fin 0)
  sortDescBy (fun t => t.1) (expScoredParses.map (fun t =>
    (jdiv t.1 normalizer, t.2)))

/-- `SoftmaxRanker.scoresAndDenotations(s)`: like the linear ranker's but
aggregating each denotation group by summation from 0. -/
def SoftmaxRanker.scoresAndDenots {P D : Type} [DecidableEq D]
    (jexp : JNum → JNum) (env : RankerEnv P D) (weights : FeatMap) (s : Str) :
    List (JNum × D) :=
  let scoredParseDenots :=
    (SoftmaxRanker.scoresAndParses jexp env weights s).map
      (fun t => (t.1, env.denote t.2))
  sortDescBy (fun t => t.1) ((groupBy (fun t => t.2) scoredParseDenots).map
    (fun grp => ((grp.2.foldl (fun acc t => jadd acc t.1) (JNum.fin 0)),
      grp.1)))

/-- `Ranker.topParse(s)` as inherited by `SoftmaxRanker`. -/
def SoftmaxRanker.topParse {P D : Type} (jexp : JNum → JNum)
    (env : RankerEnv P D) (weights : FeatMap) (s : Str) : Except String P :=
  jsFirstSecond (SoftmaxRanker.scoresAndParses jexp env weights s)

/-- `Ranker.topDenotation(s)` as inherited by `SoftmaxRanker`. -/
def SoftmaxRanker.topDenot {P D : Type} [DecidableEq D] (jexp : JNum → JNum)
    (env : RankerEnv P D) (weights : FeatMap) (s : Str) : Except String D :=
  jsFirstSecond (SoftmaxRanker.scoresAndDenots jexp env weights s)

/- ----------------------------------------------------------------- -/
/- Concrete instances used by counterexamples and witnesses          -/
/- ----------------------------------------------------------------- -/

/-- A trivial semantics (`() => null`). -/
def semNull : Sem := fun _ => JSV.null

/-- Lexical rule `$A → a`. -/
def ruleLexA : Rule := ⟨"tA".data, "$A".data, ["a".data], semNull⟩

/-- Unary rule `$B → $A`. -/
def ruleUnB : Rule := ⟨"tB".data, "$B".data, ["$A".data], semNull⟩

/-- Unary rule `$C → $B`. -/
def ruleUnC : Rule := ⟨"tC".data, "$C".data, ["$B".data], semNull⟩

/-- Unary rule `$A → $A`: a one-step unary cycle. -/
def ruleCycA : Rule := ⟨"tAA".data, "$A".data, ["$A".data], semNull⟩

/-- Lexical rule `$B → b`. -/
def ruleLexB : Rule := ⟨"tB2".data, "$B".data, ["b".data], semNull⟩

/-- Binary rule `$Root → $A $B`. -/
def ruleBinR : Rule := ⟨"tR".data, "$Root".data, ["$A".data, "$B".data],
  semNull⟩

/-- A whitespace tokenizer restricted to the two concrete inputs used below;
it satisfies the §6 tokenizer contract (each token's span carves its verbatim
source out of the input). -/
def tokenizeEx : Tokenizer := fun s =>
  if s = "a".data then [⟨"a".data, 0, 1⟩]
  else if s = "a b".data then [⟨"a".data, 0, 1⟩, ⟨"b".data, 2, 3⟩]
  else []

/-- Grammar with a two-step unary chain `$C → $B → $A` over lexical
`$A → a`. -/
def gUnaryChain : GrammarT :=
  { lexicalRules := [("a".data, [ruleLexA])],
    unaryRules := [("$A".data, [ruleUnB]), ("$B".data, [ruleUnC])],
    binaryRules := [], roots := [], subparsers := [] }

/-- Grammar with the unary cycle `$A → $A` over lexical `$A → a`. -/
def gUnaryCycle : GrammarT :=
  { lexicalRules := [("a".data, [ruleLexA])],
    unaryRules := [("$A".data, [ruleCycA])],
    binaryRules := [], roots := [], subparsers := [] }

/-- Grammar with `$Root → $A $B`, `$A → a`, `$B → b`. -/
def gBinary : GrammarT :=
  { lexicalRules := [("a".data, [ruleLexA]), ("b".data, [ruleLexB])],
    unaryRules := [],
    binaryRules := [("$A,$B".data, [ruleBinR])],
    roots := ["$Root".data], subparsers := [] }

/-- The verbatim substring of `s` between the start byte of token `i` and the
end byte of token `j - 1` — what the spec calls the span between the leftmost
and rightmost token indices of a cell `[i, j)`.  (A specification-side
definition, used to state the invariant.) -/
def spanFor (s : Str) (tokens : List Token) (i j : Nat) : Str :=
  strSlice s ((tokens.getD i dTok).start) ((tokens.getD (j - 1) dTok).stop)

/-- The lexical derivation of `a` as `$A`. -/
def pA : Parse := Derivation ruleLexA "a".data []

/-- `$B` derived from `pA` by the unary rule. -/
def pBA : Parse := Derivation ruleUnB "a".data [pA]

/-- `$C` derived from `pBA` by the unary rule. -/
def pCBA : Parse := Derivation ruleUnC "a".data [pBA]

/-- The lexical derivation of `b` as `$B`. -/
def pB : Parse := Derivation ruleLexB "b".data []

/-- The `$Root` derivation of `"a b"` with children `pA` and `pB`. -/
def pRootAB : Parse := Derivation ruleBinR "a b".data [pA, pB]

/-- A ranker environment whose parser yields no parse for any input. -/
def envNoParse : RankerEnv Unit Nat :=
  ⟨fun _ => [], fun _ => [], fun _ => 0⟩

/-- A ranker environment whose parser yields one parse with denotation 0 and
no features. -/
def envOneParse : RankerEnv Unit Nat :=
  ⟨fun _ => [], fun _ => [()], fun _ => 0⟩

/-- A degenerate random stream (only the counterexamples with at most one
sample use it, where the shuffle is the identity). -/
def zeroRands : Nat → Nat → ℚ := fun _ _ => 0

/- ================================================================= -/
/- Theorems                                                          -/
/- ================================================================= -/

/- Claim C6: stripOptional idempotence. -/

/-- Claim C6, counterexample: `stripOptional` is not idempotent on the
double-optional symbol `"??a"`: one application yields `"?a"`, a second
yields `"a"`. -/
theorem c6_counterexample :
    ¬ stripOptional (stripOptional ('?' :: '?' :: 'a' :: [])) =
      stripOptional ('?' :: '?' :: 'a' :: []) := by
  decide

/-- Claim C6, amended: `stripOptional (stripOptional x) = stripOptional x`
holds exactly when the once-stripped symbol is not itself optional — i.e.
`stripOptional` is idempotent on every symbol except those that start with
`"??"` followed by at least one character. -/
theorem c6_stripOptional_idem_iff (s : Str) :
    stripOptional (stripOptional s) = stripOptional s ↔
      isOptional (stripOptional s) = false := by
  constructor
  · intro h
    cases hOpt : isOptional (stripOptional s) with
    | false => rfl
    | true =>
        exfalso
        have hne : stripOptional s ≠ [] := by
          intro hnil
          rw [hnil] at hOpt
          simp [isOptional] at hOpt
        have hlen : (stripOptional (stripOptional s)).length =
            (stripOptional s).length - 1 := by
          rw [stripOptional, if_pos hOpt]
          simp
        rw [h] at hlen
        have : 0 < (stripOptional s).length := List.length_pos.mpr hne
        omega
  · intro h
    rw [stripOptional, if_neg]
    simp [h]

/- Claim C7: ConcatFeaturizer key namespacing. -/

/-- `digitChar` never yields an underscore. -/
theorem digitChar_ne_underscore (n : Nat) : digitChar n ≠ '_' := by
  rcases n with _|_|_|_|_|_|_|_|_|_|n <;>
    simp [digitChar, List.getD]

/-- `digitChar` is injective below 10. -/
theorem digitChar_inj_lt : ∀ a < 10, ∀ b < 10,
    digitChar a = digitChar b → a = b := by
  decide

/-- `natToStr` never yields the empty string. -/
theorem natToStr_ne_nil (n : Nat) : natToStr n ≠ [] := by
  rw [natToStr]
  split
  · simp
  · simp

/-- No character of a decimal rendering is an underscore. -/
theorem natToStr_no_underscore (n : Nat) : ∀ c ∈ natToStr n, c ≠ '_' := by
  induction n using Nat.strong_induction_on with
  | _ n ih =>
      rw [natToStr]
      split
      · intro c hc
        simp at hc
        rw [hc]
        exact digitChar_ne_underscore n
      · intro c hc
        rcases List.mem_append.mp hc with h1 | h2
        · exact ih (n / 10) (Nat.div_lt_self (by omega) (by omega)) c h1
        · simp at h2
          rw [h2]
          exact digitChar_ne_underscore (n % 10)

/-- Unfolding of `natToStr` on a single digit. -/
theorem natToStr_lt {n : Nat} (h : n < 10) : natToStr n = [digitChar n] := by
  rw [natToStr]
  simp [h]

/-- Unfolding of `natToStr` on a multi-digit number. -/
theorem natToStr_ge {n : Nat} (h : ¬ n < 10) :
    natToStr n = natToStr (n / 10) ++ [digitChar (n % 10)] := by
  rw [natToStr]
  simp [h]

/-- Decimal rendering is injective. -/
theorem natToStr_injective : ∀ a b : Nat, natToStr a = natToStr b → a = b := by
  intro a
  induction a using Nat.strong_induction_on with
  | _ a ih =>
      intro b h
      by_cases ha : a < 10 <;> by_cases hb : b < 10
      · rw [natToStr_lt ha, natToStr_lt hb] at h
        simp at h
        exact digitChar_inj_lt a ha b hb h
      · rw [natToStr_lt ha, natToStr_ge hb] at h
        have hL := congrArg List.length h
        simp only [List.length_append, List.length_cons, List.length_nil] at hL
        have hne := natToStr_ne_nil (b / 10)
        have h0 : (natToStr (b / 10)).length = 0 := by omega
        exact absurd (List.length_eq_zero.mp h0) hne
      · rw [natToStr_ge ha, natToStr_lt hb] at h
        have hL := congrArg List.length h
        simp only [List.length_append, List.length_cons, List.length_nil] at hL
        have hne := natToStr_ne_nil (a / 10)
        have h0 : (natToStr (a / 10)).length = 0 := by omega
        exact absurd (List.length_eq_zero.mp h0) hne
      · rw [natToStr_ge ha, natToStr_ge hb] at h
        have hlen : (natToStr (a / 10)).length = (natToStr (b / 10)).length := by
          have hL := congrArg List.length h
          simp at hL
          omega
        rcases List.append_inj h hlen with ⟨h1, h2⟩
        have hd : a / 10 = b / 10 :=
          ih (a / 10) (Nat.div_lt_self (by omega) (by omega)) (b / 10) h1
        simp at h2
        have hm : a % 10 = b % 10 :=
          digitChar_inj_lt (a % 10) (Nat.mod_lt a (by omega)) (b % 10)
            (Nat.mod_lt b (by omega)) h2
        omega

/-- If two strings agree and each is an underscore-free block followed by an
underscore and a tail, the blocks agree. -/
theorem underscore_head_inj : ∀ (xs ys as bs : Str),
    (∀ c ∈ xs, c ≠ '_') → (∀ c ∈ ys, c ≠ '_') →
    xs ++ '_' :: as = ys ++ '_' :: bs → xs = ys := by
  intro xs
  induction xs with
  | nil =>
      intro ys as bs _ hys h
      cases ys with
      | nil => rfl
      | cons y ys2 =>
          simp at h
          exact absurd h.1.symm (hys y (by simp))
  | cons x xs2 ihx =>
      intro ys as bs hxs hys h
      cases ys with
      | nil =>
          simp at h
          exact absurd h.1 (hxs x (by simp))
      | cons y ys2 =>
          simp at h
          rcases h with ⟨hxy, hrest⟩
          rw [hxy, ihx ys2 as bs (fun c hc => hxs c (by simp [hc]))
            (fun c hc => hys c (by simp [hc])) hrest]

/-- Claim C7: in `ConcatFeaturizer.transform`, the namespaced keys coming
from two distinct sub-featurizer indices are always distinct strings, even
when the underlying feature names coincide: the decimal index after the last
underscore determines the sub-featurizer. -/
theorem c7_concat_keys_distinct (k1 k2 : Str) (i j : Nat) (h : i ≠ j) :
    nsKey k1 i ≠ nsKey k2 j := by
  intro heq
  apply h
  apply natToStr_injective
  have hrev := congrArg List.reverse heq
  rw [nsKey, nsKey] at hrev
  simp only [List.reverse_append, List.reverse_cons] at hrev
  have h2 : (natToStr i).reverse ++ '_' :: k1.reverse =
      (natToStr j).reverse ++ '_' :: k2.reverse := by
    simpa using hrev
  have hres := underscore_head_inj (natToStr i).reverse (natToStr j).reverse
    k1.reverse k2.reverse
    (fun c hc => natToStr_no_underscore i c (List.mem_reverse.mp hc))
    (fun c hc => natToStr_no_underscore j c (List.mem_reverse.mp hc)) h2
  have := congrArg List.reverse hres
  simpa using this

/-- Claim C7, witness: the key `"a"` of sub-featurizer 0 and the key `"a"` of
sub-featurizer 1 get distinct namespaced keys. -/
theorem c7_concat_keys_distinct_witness :
    nsKey ('a' :: []) 0 ≠ nsKey ('a' :: []) 1 :=
  c7_concat_keys_distinct ('a' :: []) ('a' :: []) 0 1 (by decide)

/- Claim C10: shuffle returns a permutation and leaves its argument alone. -/

/-- Reading an element out of a list and writing another into its slot is a
permutation-preserving exchange. -/
theorem getD_cons_set_perm : ∀ (t : List α) (m : Nat) (a d : α),
    m < t.length → List.Perm (t.getD m d :: t.set m a) (a :: t) := by
  intro t
  induction t with
  | nil => intro m a d hm; simp at hm
  | cons b t2 ih =>
      intro m a d hm
      cases m with
      | zero => simpa using List.Perm.swap a b t2
      | succ k =>
          have hk : k < t2.length := by simpa using hm
          show List.Perm (t2.getD k d :: b :: t2.set k a) (a :: b :: t2)
          have h1 : List.Perm (t2.getD k d :: b :: t2.set k a)
              (b :: t2.getD k d :: t2.set k a) :=
            List.Perm.swap b (t2.getD k d) _
          have h2 : List.Perm (b :: t2.getD k d :: t2.set k a)
              (b :: a :: t2) := List.Perm.cons b (ih k a d hk)
          have h3 : List.Perm (b :: a :: t2) (a :: b :: t2) :=
            List.Perm.swap a b t2
          exact (h1.trans h2).trans h3

/-- `swapAt` preserves length. -/
theorem swapAt_length (l : List α) (i j : Nat) (d : α) :
    (swapAt l i j d).length = l.length := by
  simp [swapAt]

/-- A Fisher–Yates swap of two in-range slots is a permutation. -/
theorem swapAt_perm : ∀ (l : List α) (i j : Nat) (d : α),
    i < l.length → j < l.length → List.Perm (swapAt l i j d) l := by
  intro l
  induction l with
  | nil => intro i j d hi; simp at hi
  | cons x t ih =>
      intro i j d hi hj
      cases i with
      | zero =>
          cases j with
          | zero => simp [swapAt]
          | succ m =>
              have hm : m < t.length := by simpa using hj
              simpa [swapAt] using getD_cons_set_perm t m x d hm
      | succ n =>
          have hn : n < t.length := by simpa using hi
          cases j with
          | zero =>
              simpa [swapAt] using getD_cons_set_perm t n x d hn
          | succ m =>
              have hm : m < t.length := by simpa using hj
              have : swapAt (x :: t) (n + 1) (m + 1) d = x :: swapAt t n m d := by
                simp [swapAt]
              rw [this]
              exact List.Perm.cons x (ih n m d hn hm)

/-- The second state component (the argument array) is never written by the
shuffle loop. -/
theorem shuffleGo_snd (rand : Nat → ℚ) (d : α) :
    ∀ (c : Nat) (copy arr : List α),
      (shuffleGo rand d c (copy, arr)).2 = arr := by
  intro c
  induction c with
  | zero => intro copy arr; rfl
  | succ i ih => intro copy arr; exact ih _ arr

/-- A random draw in `[0, 1)` scaled by `m + 1` and floored is at most `m`. -/
theorem jsFloorMul_le {q : ℚ} (h0 : 0 ≤ q) (h1 : q < 1) (m : Nat) :
    jsFloorMul q (m + 1) ≤ m := by
  have hlt : q * ((m : ℚ) + 1) < (m : ℚ) + 1 := by
    have hpos : (0 : ℚ) < (m : ℚ) + 1 := by positivity
    nlinarith
  have hfl : Int.floor (q * ((m : ℚ) + 1)) < (m : ℤ) + 1 := by
    rw [Int.floor_lt]
    push_cast
    exact hlt
  have : Int.floor (q * ((m : ℚ) + 1)) ≤ (m : ℤ) := by omega
  rw [jsFloorMul]
  have hcast : ((m + 1 : Nat) : ℚ) = (m : ℚ) + 1 := by push_cast; ring
  rw [hcast]
  omega

/-- The shuffle loop's first component stays a permutation of the working
copy, for random draws in `[0, 1)`. -/
theorem shuffleGo_perm (rand : Nat → ℚ) (d : α)
    (hr : ∀ k, 0 ≤ rand k ∧ rand k < 1) :
    ∀ (c : Nat) (copy arr : List α), c < copy.length →
      List.Perm (shuffleGo rand d c (copy, arr)).1 copy := by
  intro c
  induction c with
  | zero => intro copy arr _; rfl
  | succ i ih =>
      intro copy arr hc
      have hj : jsFloorMul (rand (i + 1)) (i + 2) ≤ i + 1 :=
        jsFloorMul_le (hr (i + 1)).1 (hr (i + 1)).2 (i + 1)
      have hjlt : jsFloorMul (rand (i + 1)) (i + 2) < copy.length := by omega
      have hlen : (swapAt copy (i + 1) (jsFloorMul (rand (i + 1)) (i + 2))
          d).length = copy.length := swapAt_length copy _ _ d
      have hrec := ih (swapAt copy (i + 1)
        (jsFloorMul (rand (i + 1)) (i + 2)) d) arr (by omega)
      exact hrec.trans (swapAt_perm copy (i + 1) _ d hc hjlt)

/-- `shuffle` returns a permutation of its argument, for random draws in
`[0, 1)`. -/
theorem shuffle_perm (rand : Nat → ℚ) (hr : ∀ k, 0 ≤ rand k ∧ rand k < 1)
    (arr : List α) (d : α) : List.Perm (shuffle rand arr d) arr := by
  rw [shuffle, shuffleCall]
  cases arr with
  | nil => rfl
  | cons x t =>
      exact shuffleGo_perm rand d hr ((x :: t).length - 1) (x :: t) (x :: t)
        (by simp)

/-- Claim C10: for random draws in `[0, 1)` (the range of `Math.random`),
`shuffle(arr)` returns a permutation of `arr` — the same elements with the
same multiplicities — and the argument array itself is unchanged by the call
(the loop writes only the `arr.slice()` copy). -/
theorem c10_shuffle_perm_frame (rand : Nat → ℚ)
    (hr : ∀ k, 0 ≤ rand k ∧ rand k < 1) (arr : List α) (d : α) :
    List.Perm (shuffleCall rand arr d).1 arr ∧
      (shuffleCall rand arr d).2 = arr :=
  ⟨shuffle_perm rand hr arr d, shuffleGo_snd rand d (arr.length - 1) arr arr⟩

/-- Claim C10, witness: shuffling `[1, 2, 3]` with draws of `1/2` yields a
permutation of `[1, 2, 3]` and leaves the argument untouched. -/
theorem c10_shuffle_perm_frame_witness :
    List.Perm (shuffleCall (fun _ => (1 : ℚ) / 2) [1, 2, 3] 0).1 [1, 2, 3] ∧
      (shuffleCall (fun _ => (1 : ℚ) / 2) [1, 2, 3] 0).2 = [1, 2, 3] :=
  c10_shuffle_perm_frame (fun _ => (1 : ℚ) / 2)
    (fun _ => by norm_num) [1, 2, 3] 0

/- Claim C9: topParse/topDenotation on a parse-less utterance. -/

/-- Claim C9: whenever the underlying parser returns no parse for `s`, the
`topParse` and `topDenotation` of every ranker (constant, linear, softmax)
fail with the runtime `TypeError` from indexing `[0][1]` into the empty
scored list, instead of returning a value. -/
theorem c9_top_on_empty_errors {P D : Type} [DecidableEq D]
    (env : RankerEnv P D) (weights : FeatMap) (s : Str) (jexp : JNum → JNum)
    (h : env.parserFn s = []) :
    LinearRanker.topParse env weights s =
        .error "TypeError: Cannot read property of undefined" ∧
      LinearRanker.topDenot env weights s =
        .error "TypeError: Cannot read property of undefined" ∧
      ConstantRanker.topParse env s =
        .error "TypeError: Cannot read property of undefined" ∧
      ConstantRanker.topDenot env s =
        .error "TypeError: Cannot read property of undefined" ∧
      SoftmaxRanker.topParse jexp env weights s =
        .error "TypeError: Cannot read property of undefined" ∧
      SoftmaxRanker.topDenot jexp env weights s =
        .error "TypeError: Cannot read property of undefined" := by
  refine ⟨?_, ?_, ?_, ?_, ?_, ?_⟩ <;>
    simp [LinearRanker.topParse, LinearRanker.topDenot,
      LinearRanker.scoresAndParses, LinearRanker.scoresAndDenots,
      ConstantRanker.topParse, ConstantRanker.topDenot,
      ConstantRanker.scoresAndParses, ConstantRanker.scoresAndDenots,
      SoftmaxRanker.topParse, SoftmaxRanker.topDenot,
      SoftmaxRanker.scoresAndParses, SoftmaxRanker.scoresAndDenots,
      groupBy, sortDescBy, jsFirstSecond, h]

/-- Claim C9, witness: with a parser that yields no parses, the linear
ranker's `topParse` (and the rest) throw. -/
theorem c9_top_on_empty_errors_witness :
    LinearRanker.topParse envNoParse [] ('q' :: []) =
        .error "TypeError: Cannot read property of undefined" ∧
      LinearRanker.topDenot envNoParse [] ('q' :: []) =
        .error "TypeError: Cannot read property of undefined" ∧
      ConstantRanker.topParse envNoParse ('q' :: []) =
        .error "TypeError: Cannot read property of undefined" ∧
      ConstantRanker.topDenot envNoParse ('q' :: []) =
        .error "TypeError: Cannot read property of undefined" ∧
      SoftmaxRanker.topParse (fun x => x) envNoParse [] ('q' :: []) =
        .error "TypeError: Cannot read property of undefined" ∧
      SoftmaxRanker.topDenot (fun x => x) envNoParse [] ('q' :: []) =
        .error "TypeError: Cannot read property of undefined" :=
  c9_top_on_empty_errors envNoParse [] ('q' :: []) (fun x => x) rfl

/- Claim C5: normalizing a rule whose rhs is the single optional `?x`. -/

/-- Claim C5, counterexample: normalizing the rule `$lhs → ?x` does not
produce two rules — the `Grammar` constructor's rule processing throws the
`Rule` constructor's arity-0 `AssertionError` while building the
optional-omitted variant. -/
theorem c5_counterexample :
    processRulesInit tokenizeEx 5
        [⟨'t' :: [], "$lhs".data, [('?' :: 'x' :: [])], semNull⟩] =
      .error "Rule: arity 0 rules are not allowed." := by
  rfl

/-- Claim C5, amended: for a rule whose rhs is the single optional symbol
`?x`, `processOptionalRule` first builds the optional-included rule — rhs
`x`, tag `tag_x`, the original semantics unchanged — and then fails with the
arity-0 `AssertionError` while constructing the optional-omitted rule, whose
rhs would be empty; rule processing therefore propagates that error instead
of producing two rules. -/
theorem c5_optional_unary_rhs_amended (tag lhs x : Str) (sem : Sem)
    (tokenize : Tokenizer) (fuel : Nat) (hlhs : isNonTerminal lhs = true)
    (hx : x ≠ []) (hfuel : 1 ≤ fuel) :
    mkRule (tag ++ '_' :: x) lhs [x] sem =
        .ok ⟨tag ++ '_' :: x, lhs, [x], sem⟩ ∧
      processOptionalRule ⟨tag, lhs, ['?' :: x], sem⟩ =
        .error "Rule: arity 0 rules are not allowed." ∧
      processRulesInit tokenize fuel [⟨tag, lhs, ['?' :: x], sem⟩] =
        .error "Rule: arity 0 rules are not allowed." := by
  have hxe : x.isEmpty = false := by
    cases x with
    | nil => exact absurd rfl hx
    | cons c cs => rfl
  have hopt : isOptional ('?' :: x) = true := by
    simp [isOptional, hxe]
  have hstrip : stripOptional ('?' :: x) = x := by
    rw [stripOptional, if_pos hopt]
    rfl
  have hmk1 : mkRule (tag ++ '_' :: x) lhs [x] sem =
      .ok ⟨tag ++ '_' :: x, lhs, [x], sem⟩ := by
    rw [mkRule, hlhs]
    rfl
  have hmk2 : mkRule (tag ++ '_' :: '~' :: x) lhs [] (fun args =>
      sem (insertAt JSV.null 0 args)) =
      .error "Rule: arity 0 rules are not allowed." := by
    rw [mkRule, hlhs]
    rfl
  have hpor : processOptionalRule ⟨tag, lhs, ['?' :: x], sem⟩ =
      .error "Rule: arity 0 rules are not allowed." := by
    rw [processOptionalRule]
    simp only [List.findIdx_cons, hopt, cond_true, List.getD_cons_zero,
      hstrip, List.set_cons_zero, List.eraseIdx_cons_zero]
    rw [hmk1]
    show (mkRule (tag ++ '_' :: '~' :: x) lhs [] (fun args =>
      sem (insertAt JSV.null 0 args))).bind _ =
      .error "Rule: arity 0 rules are not allowed."
    rw [hmk2]
    rfl
  refine ⟨hmk1, hpor, ?_⟩
  obtain ⟨f, rfl⟩ : ∃ f, fuel = f + 1 := ⟨fuel - 1, by omega⟩
  have hho : Rule.hasOptionals ⟨tag, lhs, ['?' :: x], sem⟩ = true := by
    simp [Rule.hasOptionals, hopt]
  rw [processRulesInit, processRules, if_pos hho]
  rw [show (do
      let newRules ← processOptionalRule ⟨tag, lhs, ['?' :: x], sem⟩
      processRules tokenize f ([] ++ newRules) ⟨[], [], []⟩ [] [] :
      Except String RuleTables) =
    (processOptionalRule ⟨tag, lhs, ['?' :: x], sem⟩).bind
      (fun newRules =>
        processRules tokenize f ([] ++ newRules) ⟨[], [], []⟩ [] []) from rfl]
  rw [hpor]
  rfl

/- Claim C2: LinearRanker.fit on a sample with no correct parse. -/

/-- The head read `l[0]` of a non-empty array is an element of it. -/
theorem getD_zero_mem (l : List α) (d : α) (h : l ≠ []) : l.getD 0 d ∈ l := by
  cases l with
  | nil => exact absurd rfl h
  | cons x xs => exact List.mem_cons_self x xs

/-- An erroring epoch body makes the epoch loop error. -/
theorem trainLoop_body_error (body : Nat → FeatMap → Except String
    (FeatMap × JNum)) (tol : JNum) (fuel e : Nat) (prev : JNum) (w : FeatMap)
    (msg : String) (hfuel : fuel ≠ 0) (hb : body e w = .error msg) :
    trainLoop body tol fuel e prev w = .error msg := by
  obtain ⟨f, rfl⟩ : ∃ f, fuel = f + 1 := ⟨fuel - 1, by omega⟩
  rw [trainLoop, hb]

/-- A linear-ranker sample whose parse list holds no correct parse makes the
inner loop throw: the `reduce` over the empty filtered array has no initial
value. -/
theorem linSample_error {P D : Type} [DecidableEq D] [Inhabited D]
    (env : RankerEnv P D) (utts : List Str) (denots : List D)
    (epochOrder : List Nat) (st : EpochSt) (i : Nat)
    (hbad : ∀ p ∈ env.parserFn (utts.getD (epochOrder.getD i 0) []),
      env.denote p ≠ denots.getD (epochOrder.getD i 0) default) :
    linSample env utts denots epochOrder st i =
      .error "TypeError: Reduce of empty array with no initial value" := by
  have hfil : ((env.parserFn (utts.getD (epochOrder.getD i 0) [])).map
      (fun p => (dotScore st.weights (env.featurize p),
        decide (env.denote p = denots.getD (epochOrder.getD i 0) default),
        p))).filter (fun t => t.2.1) = [] := by
    rw [List.filter_eq_nil]
    intro t ht
    rcases List.mem_map.mp ht with ⟨p, hp, rfl⟩
    simpa using hbad p hp
  simp only [linSample, hfil]
  rfl

/-- Claim C2, counterexample: a training sample whose only parse has the
wrong denotation is not skipped — `LinearRanker.fit` throws the `TypeError`
from reducing the empty array of correct parses. -/
theorem c2_counterexample :
    LinearRanker.fit envOneParse zeroRands [] [('x' :: [])] [1] =
      .error "TypeError: Reduce of empty array with no initial value" := by
  rfl

/-- Claim C2, amended: a training sample whose utterance's parse list
contains no parse with the labeled denotation is not skipped: when the
shuffled order reaches it, `fit` throws a `TypeError` (`reduce` of an empty
array with no initial value) and training aborts.  Stated for data sets all
of whose samples lack a correct parse, so that the first shuffled sample
already throws, whichever permutation the random draws select. -/
theorem c2_no_correct_parse_error_amended {P D : Type} [DecidableEq D]
    [Inhabited D] (env : RankerEnv P D) (rands : Nat → Nat → ℚ)
    (weights : FeatMap) (utts : List Str) (denots : List D)
    (hlen : utts.length = denots.length) (hne : utts ≠ [])
    (hr : ∀ k, 0 ≤ rands 0 k ∧ rands 0 k < 1)
    (hbad : ∀ k, k < utts.length →
      ∀ p ∈ env.parserFn (utts.getD k []), env.denote p ≠ denots.getD k default) :
    LinearRanker.fit env rands weights utts denots =
      .error "TypeError: Reduce of empty array with no initial value" := by
  rw [LinearRanker.fit, if_neg (by omega)]
  apply trainLoop_body_error _ _ 100 0 JNum.undef weights _ (by omega)
  rw [linEpoch]
  have hperm : List.Perm (shuffle (rands 0) (jsRange utts.length) 0)
      (jsRange utts.length) := shuffle_perm (rands 0) hr _ 0
  have hordne : shuffle (rands 0) (jsRange utts.length) 0 ≠ [] := by
    intro hnil
    have := hperm.length_eq
    rw [hnil] at this
    simp [jsRange] at this
    exact hne (List.length_eq_zero.mp this.symm)
  have hidx : (shuffle (rands 0) (jsRange utts.length) 0).getD 0 0 <
      utts.length := by
    have hmem := getD_zero_mem _ 0 hordne
    have : (shuffle (rands 0) (jsRange utts.length) 0).getD 0 0 ∈
        jsRange utts.length := hperm.mem_iff.mp hmem
    simpa [jsRange] using this
  obtain ⟨m, hm⟩ : ∃ m, utts.length = m + 1 := by
    cases hl : utts.length with
    | zero => exact absurd (List.length_eq_zero.mp hl) hne
    | succ m => exact ⟨m, rfl⟩
  have hsample := linSample_error env utts denots
    (shuffle (rands 0) (jsRange utts.length) 0) ⟨weights, [], JNum.fin 0⟩ 0
    (hbad _ hidx)
  rw [hm, List.range_succ_eq_map, List.foldlM_cons, ← hm, hsample]
  rfl

/-- Claim C2, witness: the amended statement at the concrete one-sample data
set of the counterexample. -/
theorem c2_no_correct_parse_error_amended_witness :
    LinearRanker.fit envOneParse zeroRands [] [('x' :: [])] [1] =
      .error "TypeError: Reduce of empty array with no initial value" :=
  c2_no_correct_parse_error_amended envOneParse zeroRands [] [('x' :: [])]
    [1] (by decide) (by decide) (fun _ => by constructor <;> simp [zeroRands])
    (fun k hk p _ => by
      have hk0 : k = 0 := by
        have h1 : k < 1 := by simpa using hk
        omega
      subst hk0
      simp [envOneParse])

/-- Claim C5, witness: the amended statement at the concrete rule
`$lhs → ?x`. -/
theorem c5_optional_unary_rhs_amended_witness :
    mkRule ('t' :: '_' :: 'x' :: []) "$lhs".data [('x' :: [])] semNull =
        .ok ⟨'t' :: '_' :: 'x' :: [], "$lhs".data, [('x' :: [])], semNull⟩ ∧
      processOptionalRule ⟨'t' :: [], "$lhs".data, [('?' :: 'x' :: [])],
          semNull⟩ =
        .error "Rule: arity 0 rules are not allowed." ∧
      processRulesInit tokenizeEx 5
          [⟨'t' :: [], "$lhs".data, [('?' :: 'x' :: [])], semNull⟩] =
        .error "Rule: arity 0 rules are not allowed." :=
  c5_optional_unary_rhs_amended ('t' :: []) "$lhs".data ('x' :: []) semNull
    tokenizeEx 5 (by decide) (by decide) (by decide)

/- Claim C4: the stopping rule of the training loops. -/

/-- Reading `(cur :: rest)[k]` is `cur` at 0 and `rest[k-1]` later. -/
theorem getD_cons_pred (cur : α) (rest : List α) (k : Nat) (d : α) :
    (cur :: rest).getD k d = if k = 0 then cur else rest.getD (k - 1) d := by
  cases k with
  | zero => rfl
  | succ m => simp

/-- What a successful run of the epoch loop says about its loss trace: the
trace is at most `fuel` long, every epoch except the last failed the
tolerance comparison (against the previous loss passed through
`|| Infinity`), and a trace shorter than `fuel` ends with an epoch that
passed it. -/
theorem trainLoop_spec (body : Nat → FeatMap → Except String (FeatMap × JNum))
    (tol : JNum) : ∀ (fuel e : Nat) (prev : JNum) (w w2 : FeatMap)
    (L : List JNum), trainLoop body tol fuel e prev w = .ok (w2, L) →
    L.length ≤ fuel ∧
      (∀ k, k + 1 < L.length → stopCheck tol prev L k = false) ∧
      (L.length < fuel → L ≠ [] ∧
        stopCheck tol prev L (L.length - 1) = true) := by
  intro fuel
  induction fuel with
  | zero =>
      intro e prev w w2 L h
      rw [trainLoop] at h
      rcases h with ⟨rfl, rfl⟩
      exact ⟨Nat.le_refl 0, fun k hk => by simp at hk, fun hlt => by simp at hlt⟩
  | succ f ih =>
      intro e prev w w2 L h
      rw [trainLoop] at h
      cases hb : body e w with
      | error er => rw [hb] at h; exact absurd h (by simp)
      | ok res =>
          rcases res with ⟨w3, cur⟩
          rw [hb] at h
          dsimp only at h
          by_cases hc : jleB (jabs (jsub cur (jsOr prev JNum.inf))) tol = true
          · rw [if_pos hc] at h
            rcases h with ⟨rfl, rfl⟩
            refine ⟨by simp, fun k hk => by simp at hk, fun _ => ?_⟩
            refine ⟨by simp, ?_⟩
            simpa [stopCheck] using hc
          · rw [if_neg hc] at h
            cases hrec : trainLoop body tol f (e + 1) cur w3 with
            | error er => rw [hrec] at h; exact absurd h (by simp)
            | ok res2 =>
                rcases res2 with ⟨w4, rest⟩
                rw [hrec] at h
                dsimp only at h
                rcases h with ⟨rfl, rfl⟩
                have ihAll := ih (e + 1) cur w3 _ _ hrec
                rcases ihAll with ⟨ih1, ih2, ih3⟩
                refine ⟨by simpa using ih1, ?_, ?_⟩
                · intro k hk
                  cases k with
                  | zero =>
                      simp only [stopCheck, List.getD_cons_zero, if_pos rfl]
                      exact Bool.eq_false_iff.mpr hc
                  | succ m =>
                      have hm : m + 1 < rest.length := by simpa using hk
                      have hprev := ih2 m hm
                      simp only [stopCheck] at hprev ⊢
                      simp only [Nat.succ_ne_zero, if_false,
                        List.getD_cons_succ, Nat.add_sub_cancel]
                      rw [getD_cons_pred]
                      exact hprev
                · intro hlt
                  have hlt2 : rest.length < f := by simpa using hlt
                  rcases ih3 hlt2 with ⟨hne, hchk⟩
                  refine ⟨by simp, ?_⟩
                  obtain ⟨m, hm⟩ : ∃ m, rest.length = m + 1 := by
                    cases rest with
                    | nil => exact absurd rfl hne
                    | cons a b => exact ⟨b.length, rfl⟩
                  simp only [stopCheck] at hchk ⊢
                  rw [hm] at hchk
                  simp only [Nat.add_sub_cancel] at hchk
                  have hidx : (cur :: rest).length - 1 = m + 1 := by
                    simp [hm]
                  rw [hidx]
                  simp only [Nat.succ_ne_zero, if_false,
                    List.getD_cons_succ, Nat.add_sub_cancel]
                  rw [getD_cons_pred]
                  exact hchk

/-- Claim C4, counterexample: on the empty data set every epoch's loss is
exactly 0, so the claimed rule would stop at the end of epoch 2
(`|0 − 0| ≤ tol`); instead both fits run all 100 epochs, because
`curLoss || Infinity` turns the zero previous-epoch loss into `Infinity`. -/
theorem c4_counterexample :
    LinearRanker.fit envOneParse zeroRands [] [] ([] : List Nat) =
        .ok ([], List.replicate 100 (JNum.fin 0)) ∧
      SoftmaxRanker.fit (fun _ => JNum.fin 1) (fun _ => JNum.fin 0)
          envOneParse zeroRands [] [] ([] : List Nat) =
        .ok ([], List.replicate 100 (JNum.fin 0)) ∧
      jleB (jabs (jsub (JNum.fin 0) (JNum.fin 0))) (JNum.fin (1 / 100)) =
        true ∧
      jleB (jabs (jsub (JNum.fin 0) (JNum.fin 0))) (JNum.fin (1 / 10000)) =
        true := by
  refine ⟨rfl, rfl, ?_, ?_⟩ <;>
    · simp only [JNum.jsub, JNum.jadd, JNum.jneg, JNum.jabs, JNum.jleB,
        JNum.norm, decide_eq_true_eq]
      norm_num

/-- Claim C4, amended: `LinearRanker.fit` (tol `1e-2`) and
`SoftmaxRanker.fit` (tol `1e-4`) run at most `maxEpochs = 100` epochs; every
epoch except the last fails the stopping comparison, and a run of fewer than
100 epochs ends with an epoch that passes it — where the comparison is
`|loss_e − (loss_{e-1} || Infinity)| ≤ tol`: the previous epoch's loss is
replaced by `Infinity` when it is falsy (before the first epoch, or when it
is exactly 0), so an epoch following a zero-loss epoch never stops
training. -/
theorem c4_stop_condition_amended {P D : Type} [DecidableEq D] [Inhabited D]
    (env : RankerEnv P D) (rands : Nat → Nat → ℚ) (w0 : FeatMap)
    (utts : List Str) (denots : List D) (jexp jlog : JNum → JNum) :
    (∀ w2 L, LinearRanker.fit env rands w0 utts denots = .ok (w2, L) →
        L.length ≤ 100 ∧
          (∀ k, k + 1 < L.length →
            stopCheck (JNum.fin (1 / 100)) JNum.undef L k = false) ∧
          (L.length < 100 → L ≠ [] ∧
            stopCheck (JNum.fin (1 / 100)) JNum.undef L (L.length - 1) =
              true)) ∧
      (∀ w2 L, SoftmaxRanker.fit jexp jlog env rands w0 utts denots =
          .ok (w2, L) →
        L.length ≤ 100 ∧
          (∀ k, k + 1 < L.length →
            stopCheck (JNum.fin (1 / 10000)) JNum.undef L k = false) ∧
          (L.length < 100 → L ≠ [] ∧
            stopCheck (JNum.fin (1 / 10000)) JNum.undef L (L.length - 1) =
              true)) := by
  constructor
  · intro w2 L h
    rw [LinearRanker.fit] at h
    by_cases hlen : utts.length ≠ denots.length
    · rw [if_pos hlen] at h
      exact absurd h (by simp)
    · rw [if_neg hlen] at h
      exact trainLoop_spec _ _ 100 0 JNum.undef w0 w2 L h
  · intro w2 L h
    rw [SoftmaxRanker.fit] at h
    by_cases hlen : utts.length ≠ denots.length
    · rw [if_pos hlen] at h
      exact absurd h (by simp)
    · rw [if_neg hlen] at h
      exact trainLoop_spec _ _ 100 0 JNum.undef w0 w2 L h

/- Claim C1: one unary pass per cell over the cell's initial contents? -/

/-- The unary pass only appends: its result extends the initial cell. -/
theorem unaryLoop_extends (g : GrammarT) (span : Str) :
    ∀ (fuel k : Nat) (cell res : List Parse),
      unaryLoop g span fuel k cell = some res → ∃ t, res = cell ++ t := by
  intro fuel
  induction fuel with
  | zero =>
      intro k cell res h
      rw [unaryLoop] at h
      by_cases hk : k < cell.length
      · rw [if_pos hk] at h; exact absurd h (by simp)
      · rw [if_neg hk] at h
        exact ⟨[], by simpa using (Option.some.injEq _ _ ▸ h).symm⟩
  | succ f ih =>
      intro k cell res h
      rw [unaryLoop] at h
      by_cases hk : k < cell.length
      · rw [if_pos hk] at h
        rcases ih (k + 1) _ res h with ⟨t, ht⟩
        exact ⟨unaryExps g span (cell.getD k dParse) ++ t, by
          rw [ht, List.append_assoc]⟩
      · rw [if_neg hk] at h
        exact ⟨[], by simpa using (Option.some.injEq _ _ ▸ h).symm⟩

/-- When the unary pass terminates, the final cell is closed under unary
expansion: every derivation in it — including those appended by unary rules
during the pass — has had every matching unary rule applied, with the result
in the same cell. -/
theorem unaryLoop_closure (g : GrammarT) (span : Str) :
    ∀ (fuel k : Nat) (cell res : List Parse),
      unaryLoop g span fuel k cell = some res →
      (∀ j, j < k → j < cell.length →
        ∀ exp ∈ unaryExps g span (cell.getD j dParse), exp ∈ res) →
      ∀ j, j < res.length →
        ∀ exp ∈ unaryExps g span (res.getD j dParse), exp ∈ res := by
  intro fuel
  induction fuel with
  | zero =>
      intro k cell res h hpast
      rw [unaryLoop] at h
      by_cases hk : k < cell.length
      · rw [if_pos hk] at h; exact absurd h (by simp)
      · rw [if_neg hk] at h
        have hres : cell = res := by simpa using h
        subst hres
        intro j hj exp hexp
        exact hpast j (by omega) hj exp hexp
  | succ f ih =>
      intro k cell res h hpast
      rw [unaryLoop] at h
      by_cases hk : k < cell.length
      · rw [if_pos hk] at h
        have hpref := unaryLoop_extends g span f (k + 1) _ res h
        refine ih (k + 1) _ res h ?_
        intro j hj hjlen exp hexp
        by_cases hjk : j < k
        · refine hpast j hjk (by omega) exp ?_
          rw [List.getD_append] at hexp
          · exact hexp
          · omega
        · have hjeq : j = k := by omega
          subst hjeq
          rw [List.getD_append _ _ _ _ hk] at hexp
          rcases hpref with ⟨t, ht⟩
          rw [ht]
          exact List.mem_append_left t (List.mem_append_right cell hexp)
      · rw [if_neg hk] at h
        have hres : cell = res := by simpa using h
        subst hres
        intro j hj exp hexp
        exact hpast j (by omega) hj exp hexp

/-- Claim C1, counterexample: with the unary chain `$C → $B → $A` over
lexical `$A → a`, parsing `"a"` yields, inside the single cell, the
derivation `$C ($B ($A))`: the unary pass iterated over the derivations it
itself appended, so `$B ($A)` — created by a unary rule during the pass —
received another unary step in the same cell.  The single-iteration pass the
claim describes would stop at `[$A, $B($A)]`. -/
theorem c1_counterexample :
    Grammar.parse gUnaryChain tokenizeEx 10 ('a' :: []) [] =
        some [pA, pBA, pCBA] ∧
      specUnaryPassOnce gUnaryChain ('a' :: []) [pA] = [pA, pBA] ∧
      pBA.children = [pA] ∧ pCBA.children = [pBA] :=
  ⟨rfl, rfl, rfl, rfl⟩

/-- Claim C1, amended: the unary pass iterates over the cell array it is
appending to, re-reading the length each iteration; when it terminates it has
applied every matching unary rule to every derivation of the final cell —
those present at the start of the pass and those the pass itself added — so
within one cell unary rules are applied to outputs of unary rules, up to
closure. -/
theorem c1_unary_closure_amended (g : GrammarT) (span : Str) (fuel : Nat)
    (cell res : List Parse) (h : unaryLoop g span fuel 0 cell = some res) :
    (∃ t, res = cell ++ t) ∧
      ∀ j, j < res.length →
        ∀ exp ∈ unaryExps g span (res.getD j dParse), exp ∈ res :=
  ⟨unaryLoop_extends g span fuel 0 cell res h,
    unaryLoop_closure g span fuel 0 cell res h
      (fun j hj _ _ _ => absurd hj (by omega))⟩

/-- Claim C1, witness: the amended statement on the concrete chain-grammar
cell, whose unary pass terminates with the two-step unary chain applied. -/
theorem c1_unary_closure_amended_witness :
    (∃ t, [pA, pBA, pCBA] = [pA] ++ t) ∧
      ∀ j, j < ([pA, pBA, pCBA] : List Parse).length →
        ∀ exp ∈ unaryExps gUnaryChain ('a' :: [])
          (([pA, pBA, pCBA] : List Parse).getD j dParse),
          exp ∈ ([pA, pBA, pCBA] : List Parse) :=
  c1_unary_closure_amended gUnaryChain ('a' :: []) 10 [pA] [pA, pBA, pCBA] rfl

/- Claim C3: spans of returned derivations. -/

/-- Elements accumulated by an append-fold all satisfy a predicate when the
seed's and every appended block's elements do. -/
theorem foldl_append_forall {α β : Type} {Q : α → Prop} (f : β → List α) :
    ∀ (l : List β) (init : List α), (∀ d ∈ init, Q d) →
      (∀ x ∈ l, ∀ d ∈ f x, Q d) →
      ∀ d ∈ l.foldl (fun acc x => acc ++ f x) init, Q d := by
  intro l
  induction l with
  | nil => intro init hinit _ d hd; exact hinit d hd
  | cons x xs ih =>
      intro init hinit hblocks d hd
      refine ih (init ++ f x) ?_ (fun y hy => hblocks y (by simp [hy])) d hd
      intro e he
      rcases List.mem_append.mp he with h1 | h2
      · exact hinit e h1
      · exact hblocks x (by simp) e h2

/-- The string span a cell `[i, j)` computes is the verbatim slice between
token `i`'s start byte and token `j - 1`'s end byte. -/
theorem buildBaseCell_fst (g : GrammarT) (s : Str) (tokens : List Token)
    (chart : Chart) (i j : Nat) (hij : i < j) (hj : j ≤ tokens.length) :
    (buildBaseCell g s tokens chart i j).1 = spanFor s tokens i j := by
  have hlen : (jsSlice tokens i j).length = j - i := by
    simp only [jsSlice, List.length_drop, List.length_take]
    omega
  have h0 : (jsSlice tokens i j).getD 0 dTok = tokens.getD i dTok := by
    rw [List.getD_eq_getElem?_getD, List.getD_eq_getElem?_getD]
    have : (jsSlice tokens i j)[0]? = tokens[i]? := by
      rw [jsSlice, List.getElem?_drop, Nat.add_zero, List.getElem?_take]
      simp [hij]
    rw [this]
  have h1 : (jsSlice tokens i j).getD ((jsSlice tokens i j).length - 1) dTok =
      tokens.getD (j - 1) dTok := by
    rw [List.getD_eq_getElem?_getD, List.getD_eq_getElem?_getD, hlen]
    have : (jsSlice tokens i j)[j - i - 1]? = tokens[j - 1]? := by
      rw [jsSlice, List.getElem?_drop]
      have harith : i + (j - i - 1) = j - 1 := by omega
      rw [harith, List.getElem?_take]
      simp
      omega
    rw [this]
  show strSlice s ((jsSlice tokens i j).getD 0 dTok).start
      ((jsSlice tokens i j).getD ((jsSlice tokens i j).length - 1) dTok).stop =
    spanFor s tokens i j
  rw [h0, h1]
  rfl

/-- For a grammar without sub-parsers, every derivation a cell holds before
its unary pass carries the cell's string span. -/
theorem buildBaseCell_spans (g : GrammarT) (hsub : g.subparsers = [])
    (s : Str) (tokens : List Token) (chart : Chart) (i j : Nat) :
    ∀ d ∈ (buildBaseCell g s tokens chart i j).2,
      d.span = (buildBaseCell g s tokens chart i j).1 := by
  intro d hd
  rw [buildBaseCell] at hd
  simp only [hsub, List.foldl_nil] at hd
  rcases List.mem_append.mp hd with h1 | h2
  · rcases List.mem_append.mp h1 with h0 | hlex
    · exact absurd h0 (by simp)
    · rcases List.mem_map.mp hlex with ⟨r, _, rfl⟩
      rfl
  · refine foldl_append_forall
      (Q := fun e => e.span = (buildBaseCell g s tokens chart i j).1)
      _ _ [] (by simp) ?_ d h2
    intro split _ e he
    refine foldl_append_forall
      (Q := fun e => e.span = (buildBaseCell g s tokens chart i j).1)
      _ _ [] (by simp) ?_ e he
    intro lParse _ e2 he2
    refine foldl_append_forall
      (Q := fun e => e.span = (buildBaseCell g s tokens chart i j).1)
      _ _ [] (by simp) ?_ e2 he2
    intro rParse _ e3 he3
    rcases List.mem_map.mp he3 with ⟨r, _, rfl⟩
    rfl

/-- The unary pass preserves "every derivation carries the cell span": the
derivations it appends are built with that very span. -/
theorem unaryLoop_span (g : GrammarT) (sp : Str) :
    ∀ (fuel k : Nat) (cell res : List Parse),
      unaryLoop g sp fuel k cell = some res →
      (∀ d ∈ cell, d.span = sp) → ∀ d ∈ res, d.span = sp := by
  intro fuel
  induction fuel with
  | zero =>
      intro k cell res h hcell
      rw [unaryLoop] at h
      by_cases hk : k < cell.length
      · rw [if_pos hk] at h; exact absurd h (by simp)
      · rw [if_neg hk] at h
        have : cell = res := by simpa using h
        subst this
        exact hcell
  | succ f ih =>
      intro k cell res h hcell
      rw [unaryLoop] at h
      by_cases hk : k < cell.length
      · rw [if_pos hk] at h
        refine ih (k + 1) _ res h ?_
        intro d hd
        rcases List.mem_append.mp hd with h1 | h2
        · exact hcell d h1
        · rcases List.mem_map.mp h2 with ⟨r, _, rfl⟩
          rfl
      · rw [if_neg hk] at h
        have : cell = res := by simpa using h
        subst this
        exact hcell

/-- Every cell position enumerated by the chart loops is a non-empty
interval inside the token range. -/
theorem positions_bounds (T : Nat) : ∀ p ∈ positions T,
    p.1 < p.2 ∧ p.2 ≤ T := by
  intro p hp
  rw [positions] at hp
  rcases List.mem_flatMap.mp hp with ⟨l, hl, hpl⟩
  rcases List.mem_map.mp hpl with ⟨i, hi, rfl⟩
  rcases List.mem_range'.mp hl with ⟨kk, hkk, rfl⟩
  have hiT := List.mem_range.mp hi
  constructor <;> simp <;> omega

/-- Chart processing preserves the span invariant: after any prefix of valid
cell positions, every stored derivation carries its cell's verbatim token
span (grammars without sub-parsers). -/
theorem processCells_inv (g : GrammarT) (hsub : g.subparsers = []) (s : Str)
    (tokens : List Token) (fuel : Nat) :
    ∀ (ps : List (Nat × Nat)) (chart chart2 : Chart),
      (∀ p ∈ ps, p.1 < p.2 ∧ p.2 ≤ tokens.length) →
      processCells g s tokens fuel ps chart = some chart2 →
      (∀ q d, d ∈ chart q → d.span = spanFor s tokens q.1 q.2) →
      (∀ q d, d ∈ chart2 q → d.span = spanFor s tokens q.1 q.2) := by
  intro ps
  induction ps with
  | nil =>
      intro chart chart2 _ h hinv
      rw [processCells] at h
      have : chart = chart2 := by simpa using h
      subst this
      exact hinv
  | cons p ps ih =>
      intro chart chart2 hb h hinv
      rw [processCells] at h
      cases hcell : processCell g s tokens fuel chart p with
      | none => rw [hcell] at h; exact absurd h (by simp)
      | some chartb =>
          rw [hcell] at h
          refine ih chartb chart2 (fun q hq => hb q (by simp [hq])) h ?_
          rw [processCell] at hcell
          cases hu : unaryLoop g (buildBaseCell g s tokens chart p.1 p.2).1
              fuel 0 (buildBaseCell g s tokens chart p.1 p.2).2 with
          | none => rw [hu] at hcell; exact absurd hcell (by simp)
          | some cell =>
              rw [hu] at hcell
              have hset : chartSet chart p cell = chartb := by simpa using hcell
              intro q d hd
              rw [← hset, chartSet] at hd
              by_cases hqp : q = p
              · rw [if_pos hqp] at hd
                subst hqp
                have hsp := unaryLoop_span g _ fuel 0 _ cell hu
                  (buildBaseCell_spans g hsub s tokens chart q.1 q.2) d hd
                rw [hsp]
                exact buildBaseCell_fst g s tokens chart q.1 q.2
                  (hb q (by simp)).1 (hb q (by simp)).2
              · rw [if_neg hqp] at hd
                exact hinv q d hd

/-- Claim C3, counterexample: parsing `"a b"` with `$Root → $A $B`, the root
derivation's span is the verbatim `"a b"`, while the concatenation of its
children's spans is `"ab"` — the inter-token byte is in the parent's span but
in neither child's, so a span is not the concatenation of the children's
spans. -/
theorem c3_counterexample :
    Grammar.parse gBinary tokenizeEx 10 "a b".data ["$Root".data] =
        some [pRootAB] ∧
      pRootAB.span = "a b".data ∧
      (pRootAB.children.map Parse.span).flatten = "ab".data ∧
      (pRootAB.children.map Parse.span).flatten ≠ pRootAB.span := by
  refine ⟨rfl, rfl, rfl, by decide⟩

/-- Claim C3, amended: for a grammar without sub-parsers, every derivation
returned by `Grammar.parse(s)` has `span` equal to the verbatim substring of
`s` between the start byte of the input's first token and the end byte of its
last token (the leftmost and rightmost tokens under the derivation); the
concatenation-of-children's-spans half of the claim is dropped, since the
bytes between adjacent tokens appear in the parent's span only. -/
theorem c3_span_verbatim_amended (g : GrammarT) (tokenize : Tokenizer)
    (fuel : Nat) (s : Str) (roots : List Str) (res : List Parse)
    (hsub : g.subparsers = [])
    (h : Grammar.parse g tokenize fuel s roots = some res) :
    ∀ d ∈ res, d.span = spanFor s (tokenize s) 0 (tokenize s).length := by
  rw [Grammar.parse] at h
  by_cases hT : (tokenize s).length = 0
  · rw [if_pos hT] at h
    have : ([] : List Parse) = res := by simpa using h
    subst this
    intro d hd
    exact absurd hd (by simp)
  · rw [if_neg hT] at h
    cases hpc : processCells g s (tokenize s) fuel
        (positions (tokenize s).length) (fun _ => []) with
    | none => rw [hpc] at h; exact absurd h (by simp)
    | some chart =>
        rw [hpc] at h
        dsimp only at h
        have hinv := processCells_inv g hsub s (tokenize s) fuel
          (positions (tokenize s).length) (fun _ => []) chart
          (positions_bounds (tokenize s).length) hpc
          (fun q d hd => absurd hd (by simp))
        intro d hd
        have hdchart : d ∈ chart (0, (tokenize s).length) := by
          by_cases hr : 0 < roots.length
          · rw [if_pos hr] at h
            have : d ∈ (chart (0, (tokenize s).length)).filter
                (fun p => roots.contains p.category) := by
              have hres : (chart (0, (tokenize s).length)).filter
                  (fun p => roots.contains p.category) = res := by simpa using h
              rw [hres]
              exact hd
            exact List.mem_of_mem_filter this
          · rw [if_neg hr] at h
            have hres : chart (0, (tokenize s).length) = res := by simpa using h
            rw [hres]
            exact hd
        exact hinv (0, (tokenize s).length) d hdchart

/-- Claim C3, witness: the amended statement on the concrete `"a b"` parse's
root derivation. -/
theorem c3_span_verbatim_amended_witness :
    pRootAB.span = spanFor "a b".data (tokenizeEx "a b".data) 0
      (tokenizeEx "a b".data).length :=
  c3_span_verbatim_amended gBinary tokenizeEx 10 "a b".data ["$Root".data]
    [pRootAB] rfl rfl pRootAB (List.mem_singleton.mpr rfl)

/- Claim C8: unary cycles make Grammar.parse diverge. -/

/-- The unary pass is fuel-deterministic: a run that completes under some
fuel yields the same cell under any fuel that also completes. -/
theorem unaryLoop_det (g : GrammarT) (sp : Str) :
    ∀ (f1 k : Nat) (cell res : List Parse),
      unaryLoop g sp f1 k cell = some res →
      ∀ f2, unaryLoop g sp f2 k cell = none ∨
        unaryLoop g sp f2 k cell = some res := by
  intro f1
  induction f1 with
  | zero =>
      intro k cell res h f2
      rw [unaryLoop] at h
      by_cases hk : k < cell.length
      · rw [if_pos hk] at h; exact absurd h (by simp)
      · rw [if_neg hk] at h
        have hres : cell = res := by simpa using h
        subst hres
        cases f2 with
        | zero => right; rw [unaryLoop, if_neg hk]
        | succ f => right; rw [unaryLoop, if_neg hk]
  | succ f ih =>
      intro k cell res h f2
      rw [unaryLoop] at h
      by_cases hk : k < cell.length
      · rw [if_pos hk] at h
        cases f2 with
        | zero => left; rw [unaryLoop, if_pos hk]
        | succ f3 =>
            rcases ih (k + 1) _ res h f3 with h2 | h2
            · left; rw [unaryLoop, if_pos hk]; exact h2
            · right; rw [unaryLoop, if_pos hk]; exact h2
      · rw [if_neg hk] at h
        have hres : cell = res := by simpa using h
        subst hres
        cases f2 with
        | zero => right; rw [unaryLoop, if_neg hk]
        | succ f3 => right; rw [unaryLoop, if_neg hk]

/-- Chart processing is fuel-deterministic in the same sense. -/
theorem processCells_det (g : GrammarT) (s : Str) (tokens : List Token) :
    ∀ (ps : List (Nat × Nat)) (f1 : Nat) (chart res : Chart),
      processCells g s tokens f1 ps chart = some res →
      ∀ f2, processCells g s tokens f2 ps chart = none ∨
        processCells g s tokens f2 ps chart = some res := by
  intro ps
  induction ps with
  | nil =>
      intro f1 chart res h f2
      rw [processCells] at h
      right
      rw [processCells]
      exact h
  | cons p ps ih =>
      intro f1 chart res h f2
      rw [processCells] at h
      cases hc1 : processCell g s tokens f1 chart p with
      | none => rw [hc1] at h; exact absurd h (by simp)
      | some chartb =>
          rw [hc1] at h
          rw [processCell] at hc1
          cases hu1 : unaryLoop g (buildBaseCell g s tokens chart p.1 p.2).1 f1
              0 (buildBaseCell g s tokens chart p.1 p.2).2 with
          | none => rw [hu1] at hc1; exact absurd hc1 (by simp)
          | some cell =>
              rw [hu1] at hc1
              have hchartb : chartSet chart p cell = chartb := by
                simpa using hc1
              rcases unaryLoop_det g _ f1 0 _ cell hu1 f2 with h2 | h2
              · left
                rw [processCells, processCell, h2]
              · rw [processCells, processCell, h2]
                dsimp only
                rw [hchartb]
                exact ih f1 chartb res h f2

/-- A cell that holds (at or after the cursor) a derivation whose category
lies in a unary cycle makes the unary pass run forever: every fuel is
exhausted. -/
theorem unaryLoop_cycle_none (g : GrammarT) (sp : Str) (S : List Str)
    (hcycle : ∀ c ∈ S, ∃ r ∈ mgetOr g.unaryRules c [], r.lhs ∈ S) :
    ∀ (fuel k : Nat) (cell : List Parse),
      (∃ idx, k ≤ idx ∧ idx < cell.length ∧
        (cell.getD idx dParse).category ∈ S) →
      unaryLoop g sp fuel k cell = none := by
  intro fuel
  induction fuel with
  | zero =>
      intro k cell ⟨idx, hk, hlen, _⟩
      rw [unaryLoop, if_pos (by omega)]
  | succ f ih =>
      intro k cell ⟨idx, hk, hlen, hcat⟩
      rw [unaryLoop, if_pos (by omega)]
      apply ih (k + 1)
      by_cases hik : idx = k
      · subst hik
        obtain ⟨dk, hdk⟩ : ∃ dk, cell.getD idx dParse = dk := ⟨_, rfl⟩
        rw [hdk] at hcat ⊢
        rcases hcycle _ hcat with ⟨r, hr, hlhs⟩
        have hmem : Derivation r sp [dk] ∈ unaryExps g sp dk :=
          List.mem_map.mpr ⟨r, hr, rfl⟩
        rcases List.getElem_of_mem hmem with ⟨n, hn, hgn⟩
        refine ⟨cell.length + n, by omega, ?_, ?_⟩
        · rw [List.length_append]
          omega
        · have hval : (cell ++ unaryExps g sp dk).getD (cell.length + n)
              dParse = Derivation r sp [dk] := by
            rw [List.getD_append_right _ _ _ _ (by omega)]
            have harith : cell.length + n - cell.length = n := by omega
            rw [harith, List.getD_eq_getElem?_getD,
              List.getElem?_eq_getElem hn, hgn]
            rfl
          rw [hval]
          exact hlhs
      · refine ⟨idx, by omega, ?_, ?_⟩
        · rw [List.length_append]
          omega
        · rw [List.getD_append _ _ _ _ hlen]
          exact hcat

/-- Splitting the cell sequence splits chart processing. -/
theorem processCells_append (g : GrammarT) (s : Str) (tokens : List Token)
    (fuel : Nat) : ∀ (ps1 ps2 : List (Nat × Nat)) (chart : Chart),
      processCells g s tokens fuel (ps1 ++ ps2) chart =
        match processCells g s tokens fuel ps1 chart with
        | none => none
        | some c2 => processCells g s tokens fuel ps2 c2 := by
  intro ps1
  induction ps1 with
  | nil => intro ps2 chart; rfl
  | cons p ps ih =>
      intro ps2 chart
      rw [List.cons_append, processCells, processCells]
      cases processCell g s tokens fuel chart p with
      | none => rfl
      | some chartb => exact ih ps2 chartb

/-- Claim C8: if the normalized unary-rule table has a cycle — a set `S` of
categories each of which has a unary rule whose lhs is again in `S` — then on
any input whose chart processing reaches (under some fuel `fuel0`) a cell
whose pre-unary contents hold a derivation with category in `S`,
`Grammar.parse` does not terminate: it exhausts every fuel, because the unary
pass iterates over the same growing array it appends to. -/
theorem c8_unary_cycle_diverges (g : GrammarT) (tokenize : Tokenizer)
    (s : Str) (roots : List Str) (S : List Str)
    (hcycle : ∀ c ∈ S, ∃ r ∈ mgetOr g.unaryRules c [], r.lhs ∈ S)
    (pre post : List (Nat × Nat)) (p : Nat × Nat) (chart0 : Chart)
    (fuel0 : Nat)
    (hpos : positions (tokenize s).length = pre ++ p :: post)
    (hpre : processCells g s (tokenize s) fuel0 pre (fun _ => []) =
      some chart0)
    (hhit : ∃ d ∈ (buildBaseCell g s (tokenize s) chart0 p.1 p.2).2,
      d.category ∈ S) :
    ∀ fuel, Grammar.parse g tokenize fuel s roots = none := by
  intro fuel
  rw [Grammar.parse]
  have hT : ¬ (tokenize s).length = 0 := by
    intro h0
    rw [h0] at hpos
    have hL := congrArg List.length hpos
    simp [positions] at hL
    omega
  rw [if_neg hT]
  suffices hnone : processCells g s (tokenize s) fuel
      (positions (tokenize s).length) (fun _ => []) = none by rw [hnone]
  rw [hpos, processCells_append]
  rcases processCells_det g s (tokenize s) pre fuel0 (fun _ => [])
      chart0 hpre fuel with hq | hq
  · rw [hq]
  · rw [hq]
    dsimp only
    rw [processCells, processCell]
    rcases hhit with ⟨d, hd, hdS⟩
    rcases List.getElem_of_mem hd with ⟨n, hn, hgn⟩
    have hnone2 := unaryLoop_cycle_none g
      (buildBaseCell g s (tokenize s) chart0 p.1 p.2).1 S hcycle fuel 0
      (buildBaseCell g s (tokenize s) chart0 p.1 p.2).2
      ⟨n, by omega, hn, by
        rw [List.getD_eq_getElem?_getD, List.getElem?_eq_getElem hn]
        simpa [hgn] using hdS⟩
    rw [hnone2]

/-- Claim C8, witness: with the cyclic grammar `$A → $A` over lexical
`$A → a`, parsing `"a"` diverges (here: exhausts the concrete fuel 37, as it
does every fuel by the theorem). -/
theorem c8_unary_cycle_diverges_witness :
    Grammar.parse gUnaryCycle tokenizeEx 37 ('a' :: []) [] = none :=
  c8_unary_cycle_diverges gUnaryCycle tokenizeEx ('a' :: []) [] ["$A".data]
    (fun c hc => by
      have hcA : c = "$A".data := by simpa using hc
      subst hcA
      refine ⟨ruleCycA, ?_, ?_⟩
      · show ruleCycA ∈ mgetOr gUnaryCycle.unaryRules "$A".data []
        have hbucket : mgetOr gUnaryCycle.unaryRules "$A".data [] =
            [ruleCycA] := rfl
        rw [hbucket]
        exact List.mem_singleton.mpr rfl
      · show ruleCycA.lhs ∈ ["$A".data]
        exact List.mem_singleton.mpr rfl)
    [] [] (0, 1) (fun _ => []) 0 rfl rfl
    ⟨pA, by
      have hbase : (buildBaseCell gUnaryCycle ('a' :: [])
          (tokenizeEx ('a' :: [])) (fun _ => []) 0 1).2 = [pA] := rfl
      rw [hbase]
      exact List.mem_singleton.mpr rfl, by
      show pA.category ∈ ["$A".data]
      exact List.mem_singleton.mpr rfl⟩
    37

/-- Claim C4, witness: the amended statement applied to the all-zero loss
trace of the empty data set, on which both fits complete 100 epochs. -/
theorem c4_stop_condition_amended_witness :
    (List.replicate 100 (JNum.fin 0)).length ≤ 100 ∧
      (∀ k, k + 1 < (List.replicate 100 (JNum.fin 0)).length →
        stopCheck (JNum.fin (1 / 100)) JNum.undef
          (List.replicate 100 (JNum.fin 0)) k = false) ∧
      ((List.replicate 100 (JNum.fin 0)).length < 100 →
        List.replicate 100 (JNum.fin 0) ≠ [] ∧
        stopCheck (JNum.fin (1 / 100)) JNum.undef
          (List.replicate 100 (JNum.fin 0))
          ((List.replicate 100 (JNum.fin 0)).length - 1) = true) :=
  (c4_stop_condition_amended envOneParse zeroRands [] [] ([] : List Nat)
      (fun _ => JNum.fin 1) (fun _ => JNum.fin 0)).1
    [] (List.replicate 100 (JNum.fin 0)) rfl

end Parsem
